import Mathlib

/-!
Verification of the PPR repository's core: the sparse graph store
(src/backend/infrastructure/graph.py), the strategy layer
(src/backend/domain/strategies.py) and the power-iteration PageRank engine
(src/backend/domain/pagerank.py), shallowly embedded over exact rationals.
Machine floats are modelled by ℚ; mutable numpy arrays by pure vectors
`Fin n → ℚ`; Python dicts by insertion-ordered association lists.
-/

namespace PPR

/-! ## Graph store: src/backend/infrastructure/graph.py

A `SparseGraph` holds `directed`, the adjacency dict-of-dicts
`_adjacency_list` (insertion-ordered association list of node id to an
insertion-ordered association list of neighbor id to weight) and the running
`_edge_count` (a Python int, hence `Int`).  The index maps `_node_to_idx` and
`_idx_to_node` always coincide with list position because nodes are never
removed, so they are not stored separately. -/

structure SparseGraph where
  directed : Bool
  adj : List (String × List (String × ℚ))
  edge_count : Int
  deriving DecidableEq, Repr

/-- `SparseGraph.__init__`: empty adjacency, zero edge count. -/
def SparseGraph.empty (directed : Bool) : SparseGraph :=
  { directed := directed, adj := [], edge_count := 0 }

/-- The node identifiers in insertion order (`get_nodes`). -/
def SparseGraph.nodes (g : SparseGraph) : List String :=
  g.adj.map (·.1)

/-- `_adjacency_list[id]` when present, else the empty dict; used below to
model reads that in Python are guarded by membership tests. -/
def neighborsOf (g : SparseGraph) (id : String) : List (String × ℚ) :=
  ((g.adj.find? (·.1 == id)).map (·.2)).getD []

/-- Python dict write `d[t] = w`: overwrite in place if the key is present,
otherwise append at the end (dict insertion order). -/
def setWeight (nbrs : List (String × ℚ)) (t : String) (w : ℚ) :
    List (String × ℚ) :=
  if nbrs.any (·.1 == t) then
    nbrs.map (fun kv => if kv.1 == t then (kv.1, w) else kv)
  else nbrs ++ [(t, w)]

/-- Python dict delete `del d[t]` on a present key, modelled totally as a
filter; in every state reachable by the graph's own operations the key is
present exactly when the operation performs the delete. -/
def delWeight (nbrs : List (String × ℚ)) (t : String) : List (String × ℚ) :=
  nbrs.filter (fun kv => kv.1 != t)

/-- Rewrite the neighbor dict stored under key `s` in the outer adjacency
dict, leaving every other entry alone. -/
def updateAdj (adj : List (String × List (String × ℚ))) (s : String)
    (f : List (String × ℚ) → List (String × ℚ)) :
    List (String × List (String × ℚ)) :=
  adj.map (fun e => if e.1 == s then (e.1, f e.2) else e)

/-- `SparseGraph.add_node`: insert an empty neighbor dict (and the next free
index) on first insertion only. -/
def SparseGraph.add_node (g : SparseGraph) (id : String) : SparseGraph :=
  if g.adj.any (·.1 == id) then g
  else { g with adj := g.adj ++ [(id, [])] }

/-- `target in self._adjacency_list[source]`. -/
def SparseGraph.hasEdge (g : SparseGraph) (s t : String) : Bool :=
  (neighborsOf g s).any (·.1 == t)

/-- The stored weight of the directed pair `(s, t)`, when present. -/
def SparseGraph.edgeWeight (g : SparseGraph) (s t : String) : Option ℚ :=
  ((neighborsOf g s).find? (·.1 == t)).map (·.2)

/-- `SparseGraph.add_edge`: ensure both endpoints exist, bump the counter
only when the directed pair is new, overwrite the weight, and mirror the
edge (with its own counter check) when the graph is undirected and the
endpoints differ. -/
def SparseGraph.add_edge (g : SparseGraph) (s t : String) (w : ℚ) :
    SparseGraph :=
  let g1 := (g.add_node s).add_node t
  let c1 : Int := if g1.hasEdge s t then g1.edge_count else g1.edge_count + 1
  let g2 : SparseGraph :=
    { g1 with adj := updateAdj g1.adj s (fun nb => setWeight nb t w),
              edge_count := c1 }
  if !g.directed && s != t then
    let c2 : Int :=
      if g2.hasEdge t s then g2.edge_count else g2.edge_count + 1
    { g2 with adj := updateAdj g2.adj t (fun nb => setWeight nb s w),
              edge_count := c2 }
  else g2

/-- `SparseGraph.remove_edge`: delete and decrement when the pair is stored
(together with its mirror when undirected and the endpoints differ), else
report failure. -/
def SparseGraph.remove_edge (g : SparseGraph) (s t : String) :
    SparseGraph × Bool :=
  if g.hasEdge s t then
    let g1 : SparseGraph :=
      { g with adj := updateAdj g.adj s (fun nb => delWeight nb t),
               edge_count := g.edge_count - 1 }
    if !g.directed && s != t then
      ({ g1 with adj := updateAdj g1.adj t (fun nb => delWeight nb s),
                 edge_count := g1.edge_count - 1 }, true)
    else (g1, true)
  else (g, false)

/-- The number of stored (source, target) adjacency pairs. -/
def pairCount (g : SparseGraph) : Nat :=
  (g.adj.map (fun e => e.2.length)).sum

/-! ### Well-formedness of graph states

Every state reachable by the graph's own operations has: no duplicate keys
in the outer dict or in any neighbor dict (Python dicts cannot), an edge
counter equal to the number of stored pairs, and — when undirected — a
mirror entry of equal weight for every stored pair with distinct endpoints
(the documented undirected invariant). -/

def keysNodup (g : SparseGraph) : Prop :=
  (g.adj.map (·.1)).Nodup

def nbrsNodup (g : SparseGraph) : Prop :=
  ∀ e ∈ g.adj, (e.2.map (·.1)).Nodup

def countOK (g : SparseGraph) : Prop :=
  g.edge_count = (pairCount g : Int)

def mirrorOK (g : SparseGraph) : Prop :=
  g.directed = false →
    ∀ e ∈ g.adj, ∀ kv ∈ e.2, e.1 = kv.1 ∨ g.edgeWeight kv.1 e.1 = some kv.2

def WF (g : SparseGraph) : Prop :=
  keysNodup g ∧ nbrsNodup g ∧ countOK g ∧ mirrorOK g

instance (g : SparseGraph) : Decidable (WF g) := by
  unfold WF keysNodup nbrsNodup countOK mirrorOK
  infer_instance

/-! ### Association-list lemmas -/

theorem setWeight_find_eq (nbrs : List (String × ℚ)) (t : String) (w : ℚ) :
    (setWeight nbrs t w).find? (·.1 == t) = some (t, w) := by
  unfold setWeight
  by_cases h : nbrs.any (·.1 == t)
  · rw [if_pos h, List.find?_map]
    obtain ⟨e, he, hp⟩ := (List.any_eq_true).mp h
    have h3 : (nbrs.find? (·.1 == t)).isSome := by
      rw [List.find?_isSome]
      exact ⟨e, he, hp⟩
    obtain ⟨a, ha⟩ := Option.isSome_iff_exists.mp h3
    have hk : a.1 = t := by simpa using List.find?_some ha
    have hco : ((·.1 == t) ∘ fun kv : String × ℚ =>
        if kv.1 == t then (kv.1, w) else kv) = (·.1 == t) := by
      funext kv
      by_cases hkv : kv.1 = t <;> simp [hkv]
    rw [hco, ha]
    simp [hk]
  · rw [if_neg h, List.find?_append]
    have hn : nbrs.find? (·.1 == t) = none := by
      rw [List.find?_eq_none]
      intro x hx hc
      exact h (List.any_eq_true.mpr ⟨x, hx, hc⟩)
    simp [hn]

theorem setWeight_find_ne (nbrs : List (String × ℚ)) (t x : String) (w : ℚ)
    (hx : x ≠ t) :
    (setWeight nbrs t w).find? (·.1 == x) = nbrs.find? (·.1 == x) := by
  unfold setWeight
  by_cases h : nbrs.any (·.1 == t)
  · rw [if_pos h, List.find?_map]
    have hco : ((·.1 == x) ∘ fun kv : String × ℚ =>
        if kv.1 == t then (kv.1, w) else kv) = (·.1 == x) := by
      funext kv
      by_cases hkv : kv.1 = t <;> simp [hkv, hx, Ne.symm hx]
    rw [hco]
    cases hf : nbrs.find? (·.1 == x) with
    | none => simp
    | some a =>
      have hk : a.1 = x := by simpa using List.find?_some hf
      have hat : ¬a.1 = t := fun hc => hx (hk.symm.trans hc)
      simp [hat]
  · rw [if_neg h, List.find?_append]
    have h1 : List.find? (·.1 == x) [(t, w)] = none := by
      simp [Ne.symm hx]
    rw [h1]
    cases hf : nbrs.find? (·.1 == x) <;> simp

theorem setWeight_length (nbrs : List (String × ℚ)) (t : String) (w : ℚ) :
    (setWeight nbrs t w).length =
      if nbrs.any (·.1 == t) then nbrs.length else nbrs.length + 1 := by
  unfold setWeight
  by_cases h : nbrs.any (·.1 == t) <;> simp [h]

theorem setWeight_keys (nbrs : List (String × ℚ)) (t : String) (w : ℚ) :
    (setWeight nbrs t w).map (·.1) =
      if nbrs.any (·.1 == t) then nbrs.map (·.1)
      else nbrs.map (·.1) ++ [t] := by
  unfold setWeight
  by_cases h : nbrs.any (·.1 == t)
  · rw [if_pos h, if_pos h, List.map_map]
    congr 1
    funext kv
    by_cases hkv : kv.1 = t <;> simp [hkv]
  · simp [h]

theorem delWeight_find_eq (nbrs : List (String × ℚ)) (t : String) :
    (delWeight nbrs t).find? (·.1 == t) = none := by
  unfold delWeight
  rw [List.find?_eq_none]
  intro x hx
  have := List.of_mem_filter hx
  simpa using this

theorem delWeight_find_ne (nbrs : List (String × ℚ)) (t x : String)
    (hx : x ≠ t) :
    (delWeight nbrs t).find? (·.1 == x) = nbrs.find? (·.1 == x) := by
  unfold delWeight
  induction nbrs with
  | nil => rfl
  | cons e rest ih =>
    by_cases he : e.1 = t
    · rw [List.filter_cons_of_neg (by simp [he])]
      rw [List.find?_cons_of_neg _ (by simp [he, Ne.symm hx])]
      exact ih
    · rw [List.filter_cons_of_pos (by simp [he])]
      by_cases hex : e.1 = x
      · rw [List.find?_cons_of_pos _ (by simp [hex]),
          List.find?_cons_of_pos _ (by simp [hex])]
      · rw [List.find?_cons_of_neg _ (by simp [hex]),
          List.find?_cons_of_neg _ (by simp [hex])]
        exact ih

theorem delWeight_length_present (nbrs : List (String × ℚ)) (t : String)
    (hnd : (nbrs.map (·.1)).Nodup) (h : nbrs.any (·.1 == t)) :
    (delWeight nbrs t).length + 1 = nbrs.length := by
  unfold delWeight
  induction nbrs with
  | nil => simp at h
  | cons e rest ih =>
    by_cases he : e.1 = t
    · rw [List.filter_cons_of_neg (by simp [he])]
      have hid : rest.filter (fun kv => kv.1 != t) = rest := by
        rw [List.filter_eq_self]
        intro kv hkv
        simp only [List.map_cons, List.nodup_cons] at hnd
        have hmem : e.1 ∉ rest.map (·.1) := hnd.1
        simp only [ne_eq, bne_iff_ne]
        intro hc
        exact hmem (by rw [he, ← hc]; exact List.mem_map_of_mem _ hkv)
      rw [hid]
      simp
    · rw [List.filter_cons_of_pos (by simp [he])]
      have hr : rest.any (·.1 == t) := by
        simp only [List.any_cons] at h
        rcases Bool.or_eq_true_iff.mp h with h1 | h1
        · exact absurd (by simpa using h1) he
        · exact h1
      have hnd2 : (rest.map (·.1)).Nodup := by
        simp only [List.map_cons, List.nodup_cons] at hnd
        exact hnd.2
      simp only [List.length_cons]
      have := ih hnd2 hr
      omega

theorem delWeight_length_absent (nbrs : List (String × ℚ)) (t : String)
    (h : ¬nbrs.any (·.1 == t)) :
    (delWeight nbrs t).length = nbrs.length := by
  unfold delWeight
  rw [List.filter_eq_self.mpr]
  intro kv hkv
  simp only [ne_eq, bne_iff_ne]
  intro hc
  exact h (List.any_eq_true.mpr ⟨kv, hkv, by simp [hc]⟩)

theorem delWeight_keys_sublist (nbrs : List (String × ℚ)) (t : String) :
    ((delWeight nbrs t).map (·.1)).Sublist (nbrs.map (·.1)) :=
  List.Sublist.map _ (List.filter_sublist nbrs)

theorem updateAdj_keys (adj : List (String × List (String × ℚ)))
    (s : String) (f) :
    (updateAdj adj s f).map (·.1) = adj.map (·.1) := by
  unfold updateAdj
  rw [List.map_map]
  congr 1
  funext e
  by_cases h : e.1 = s <;> simp [h]

theorem updateAdj_find_ne (adj : List (String × List (String × ℚ)))
    (s x : String) (f) (hx : x ≠ s) :
    (updateAdj adj s f).find? (·.1 == x) = adj.find? (·.1 == x) := by
  unfold updateAdj
  rw [List.find?_map]
  have hco : ((·.1 == x) ∘ fun e : String × List (String × ℚ) =>
      if e.1 == s then (e.1, f e.2) else e) = (·.1 == x) := by
    funext e
    by_cases h : e.1 = s <;> simp [h]
  rw [hco]
  cases hf : adj.find? (·.1 == x) with
  | none => simp
  | some a =>
    have hk : a.1 = x := by simpa using List.find?_some hf
    have has : ¬a.1 = s := fun hc => hx (hk.symm.trans hc)
    simp [has]

theorem updateAdj_find_eq (adj : List (String × List (String × ℚ)))
    (s : String) (f) :
    (updateAdj adj s f).find? (·.1 == s)
      = (adj.find? (·.1 == s)).map (fun e => (e.1, f e.2)) := by
  unfold updateAdj
  rw [List.find?_map]
  have hco : ((·.1 == s) ∘ fun e : String × List (String × ℚ) =>
      if e.1 == s then (e.1, f e.2) else e) = (·.1 == s) := by
    funext e
    by_cases h : e.1 = s <;> simp [h]
  rw [hco]
  cases hf : adj.find? (·.1 == s) with
  | none => simp
  | some a =>
    have hk : a.1 = s := by simpa using List.find?_some hf
    simp [hk]

/-- `pairCount` on a raw adjacency list. -/
def pairCountL (adj : List (String × List (String × ℚ))) : Nat :=
  (adj.map (fun e => e.2.length)).sum

theorem pairCount_eq (g : SparseGraph) : pairCount g = pairCountL g.adj := rfl

theorem updateAdj_pairCount (adj : List (String × List (String × ℚ)))
    (s : String) (f)
    (hnd : (adj.map (·.1)).Nodup) (e₀ : String × List (String × ℚ))
    (hfind : adj.find? (·.1 == s) = some e₀) :
    pairCountL (updateAdj adj s f) + e₀.2.length
      = pairCountL adj + (f e₀.2).length := by
  induction adj with
  | nil => simp at hfind
  | cons e rest ih =>
    by_cases he : e.1 = s
    · rw [List.find?_cons_of_pos _ (by simp [he])] at hfind
      have he₀ : e₀ = e := by injection hfind with h; exact h.symm
      have hrest : List.map
          (fun a => if a.1 == s then (a.1, f a.2) else a) rest = rest := by
        rw [List.map_congr_left (g := id), List.map_id]
        intro x hx
        have hxs : ¬x.1 = s := by
          simp only [List.map_cons, List.nodup_cons] at hnd
          intro hc
          exact hnd.1 (he ▸ hc ▸ List.mem_map_of_mem _ hx)
        simp [hxs]
      unfold updateAdj pairCountL
      simp only [List.map_cons, hrest, List.sum_cons,
        if_pos (by simp [he] : (e.1 == s) = true)]
      subst he₀
      omega
    · rw [List.find?_cons_of_neg _ (by simp [he])] at hfind
      have hnd2 : (rest.map (·.1)).Nodup := by
        simp only [List.map_cons, List.nodup_cons] at hnd
        exact hnd.2
      have hih := ih hnd2 hfind
      unfold updateAdj pairCountL at hih ⊢
      simp only [List.map_cons, List.sum_cons,
        if_neg (by simp [he] : ¬(e.1 == s) = true)]
      omega


/-! ### Graph-level characterizations -/

theorem add_node_directed (g : SparseGraph) (id : String) :
    (g.add_node id).directed = g.directed := by
  unfold SparseGraph.add_node
  by_cases h : g.adj.any (·.1 == id) <;> simp [h]

theorem add_node_edge_count (g : SparseGraph) (id : String) :
    (g.add_node id).edge_count = g.edge_count := by
  unfold SparseGraph.add_node
  by_cases h : g.adj.any (·.1 == id) <;> simp [h]

theorem add_node_adj_present (g : SparseGraph) (id : String)
    (h : g.adj.any (·.1 == id)) : (g.add_node id).adj = g.adj := by
  unfold SparseGraph.add_node
  simp [h]

theorem add_node_adj_absent (g : SparseGraph) (id : String)
    (h : ¬g.adj.any (·.1 == id)) :
    (g.add_node id).adj = g.adj ++ [(id, [])] := by
  unfold SparseGraph.add_node
  simp [h]

theorem neighborsOf_add_node (g : SparseGraph) (id x : String) :
    neighborsOf (g.add_node id) x = neighborsOf g x := by
  unfold neighborsOf
  by_cases h : g.adj.any (·.1 == id)
  · rw [add_node_adj_present g id h]
  · rw [add_node_adj_absent g id h, List.find?_append]
    cases hf : g.adj.find? (·.1 == x) with
    | some a => simp [hf]
    | none =>
      by_cases hix : id = x
      · simp [hf, hix]
      · simp [hf, show ¬((id == x) = true) by simp [hix]]

theorem edgeWeight_add_node (g : SparseGraph) (id s t : String) :
    (g.add_node id).edgeWeight s t = g.edgeWeight s t := by
  unfold SparseGraph.edgeWeight
  rw [neighborsOf_add_node]

theorem hasEdge_add_node (g : SparseGraph) (id s t : String) :
    (g.add_node id).hasEdge s t = g.hasEdge s t := by
  unfold SparseGraph.hasEdge
  rw [neighborsOf_add_node]

theorem add_node_pairCount (g : SparseGraph) (id : String) :
    pairCount (g.add_node id) = pairCount g := by
  unfold SparseGraph.add_node pairCount
  by_cases h : g.adj.any (·.1 == id) <;> simp [h]

theorem add_node_nodes (g : SparseGraph) (id : String) :
    (g.add_node id).nodes =
      if g.adj.any (·.1 == id) then g.nodes else g.nodes ++ [id] := by
  unfold SparseGraph.add_node SparseGraph.nodes
  by_cases h : g.adj.any (·.1 == id) <;> simp [h]

theorem mem_nodes_iff_any (g : SparseGraph) (x : String) :
    x ∈ g.nodes ↔ g.adj.any (·.1 == x) = true := by
  unfold SparseGraph.nodes
  simp [List.any_eq_true, List.mem_map]

theorem mem_nodes_add_node (g : SparseGraph) (id x : String) :
    x ∈ (g.add_node id).nodes ↔ x ∈ g.nodes ∨ x = id := by
  rw [add_node_nodes]
  by_cases h : g.adj.any (·.1 == id)
  · rw [if_pos h]
    constructor
    · exact Or.inl
    · rintro (hx | rfl)
      · exact hx
      · exact (mem_nodes_iff_any g x).mpr h
  · rw [if_neg h]
    simp

theorem keysNodup_add_node (g : SparseGraph) (id : String)
    (h : keysNodup g) : keysNodup (g.add_node id) := by
  unfold keysNodup at h ⊢
  by_cases ha : g.adj.any (·.1 == id)
  · rw [add_node_adj_present g id ha]
    exact h
  · rw [add_node_adj_absent g id ha]
    simp only [List.map_append, List.map_cons, List.map_nil]
    rw [List.nodup_append]
    refine ⟨h, List.nodup_singleton id, ?_⟩
    intro x hx
    simp only [List.mem_singleton]
    intro hc
    subst hc
    exact ha ((mem_nodes_iff_any g x).mp hx)


theorem any_key_iff_find?_isSome {β : Type} (l : List (String × β))
    (x : String) : l.any (·.1 == x) = true ↔ (l.find? (·.1 == x)).isSome := by
  rw [List.any_eq_true, List.find?_isSome]

theorem find?_eq_of_mem_nodupkeys {β : Type} (l : List (String × β))
    (e : String × β) (x : String) (hnd : (l.map (·.1)).Nodup)
    (he : e ∈ l) (hx : e.1 = x) : l.find? (·.1 == x) = some e := by
  induction l with
  | nil => simp at he
  | cons a rest ih =>
    simp only [List.map_cons, List.nodup_cons] at hnd
    rcases List.mem_cons.mp he with rfl | hmem
    · rw [List.find?_cons_of_pos _ (by simp [hx])]
    · have hax : ¬a.1 = x := by
        intro hc
        refine hnd.1 ?_
        rw [hc, ← hx]
        exact List.mem_map_of_mem _ hmem
      rw [List.find?_cons_of_neg _ (by simp [hax])]
      exact ih hnd.2 hmem

theorem hasEdge_iff_isSome (g : SparseGraph) (s t : String) :
    g.hasEdge s t = true ↔ (g.edgeWeight s t).isSome := by
  unfold SparseGraph.hasEdge SparseGraph.edgeWeight
  rw [any_key_iff_find?_isSome]
  cases (neighborsOf g s).find? (·.1 == t) <;> simp

theorem edgeWeight_mem_iff (g : SparseGraph) (x y : String) (w : ℚ)
    (hk : keysNodup g) (hn : nbrsNodup g) :
    g.edgeWeight x y = some w ↔ ∃ e ∈ g.adj, e.1 = x ∧ (y, w) ∈ e.2 := by
  unfold SparseGraph.edgeWeight neighborsOf
  constructor
  · intro h
    cases hf : g.adj.find? (·.1 == x) with
    | none => rw [hf] at h; simp at h
    | some e =>
      rw [hf] at h
      simp only [Option.map_some', Option.getD_some] at h
      have hex : e.1 = x := by simpa using List.find?_some hf
      have hemem : e ∈ g.adj := List.mem_of_find?_eq_some hf
      cases hf2 : e.2.find? (·.1 == y) with
      | none => rw [hf2] at h; simp at h
      | some kv =>
        rw [hf2] at h
        simp only [Option.map_some', Option.some_inj] at h
        have hky : kv.1 = y := by simpa using List.find?_some hf2
        have hkmem : kv ∈ e.2 := List.mem_of_find?_eq_some hf2
        refine ⟨e, hemem, hex, ?_⟩
        have : kv = (y, w) := by
          cases kv
          simp only [Prod.mk.injEq]
          exact ⟨hky, h⟩
        exact this ▸ hkmem
  · rintro ⟨e, hemem, hex, hkv⟩
    rw [find?_eq_of_mem_nodupkeys g.adj e x hk hemem hex]
    simp only [Option.map_some', Option.getD_some]
    rw [find?_eq_of_mem_nodupkeys e.2 (y, w) y (hn e hemem) hkv rfl]
    simp

/-- The mirror invariant restated through `edgeWeight`. -/
def mirrorW (g : SparseGraph) : Prop :=
  g.directed = false →
    ∀ x y : String, ∀ w : ℚ, x ≠ y → g.edgeWeight x y = some w →
      g.edgeWeight y x = some w

theorem mirrorOK_iff_mirrorW (g : SparseGraph) (hk : keysNodup g)
    (hn : nbrsNodup g) : mirrorOK g ↔ mirrorW g := by
  unfold mirrorOK mirrorW
  constructor
  · intro h hd x y w hxy hw
    obtain ⟨e, hemem, hex, hkv⟩ := (edgeWeight_mem_iff g x y w hk hn).mp hw
    rcases h hd e hemem (y, w) hkv with h1 | h1
    · exact absurd (hex ▸ h1) hxy
    · exact hex ▸ h1
  · intro h hd e hemem kv hkv
    by_cases hxy : e.1 = kv.1
    · exact Or.inl hxy
    · refine Or.inr (h hd e.1 kv.1 kv.2 hxy ?_)
      exact (edgeWeight_mem_iff g e.1 kv.1 kv.2 hk hn).mpr
        ⟨e, hemem, rfl, by simpa using hkv⟩


theorem any_key_mem {β : Type} (l : List (String × β)) (x : String) :
    l.any (·.1 == x) = true ↔ x ∈ l.map (·.1) := by
  rw [List.any_eq_true, List.mem_map]
  constructor
  · rintro ⟨a, ha, hk⟩
    exact ⟨a, ha, by simpa using hk⟩
  · rintro ⟨a, ha, hk⟩
    exact ⟨a, ha, by simpa using hk⟩

theorem any_key_of_keys_eq {β : Type} (l₁ l₂ : List (String × β))
    (hkeys : l₁.map (·.1) = l₂.map (·.1)) (x : String) :
    l₁.any (·.1 == x) = l₂.any (·.1 == x) := by
  have h1 := any_key_mem l₁ x
  have h2 := any_key_mem l₂ x
  rw [hkeys] at h1
  rw [Bool.eq_iff_iff]
  exact h1.trans h2.symm

theorem any_updateAdj (adj : List (String × List (String × ℚ)))
    (s x : String) (f) :
    (updateAdj adj s f).any (·.1 == x) = adj.any (·.1 == x) :=
  any_key_of_keys_eq _ _ (updateAdj_keys adj s f) x

/-! ### List-level views of the adjacency structure -/

def nbrsL (adj : List (String × List (String × ℚ))) (s : String) :
    List (String × ℚ) :=
  ((adj.find? (·.1 == s)).map (·.2)).getD []

def edgeWeightL (adj : List (String × List (String × ℚ))) (s t : String) :
    Option ℚ :=
  ((nbrsL adj s).find? (·.1 == t)).map (·.2)

def hasEdgeL (adj : List (String × List (String × ℚ))) (s t : String) :
    Bool :=
  (nbrsL adj s).any (·.1 == t)

theorem neighborsOf_eq_nbrsL (g : SparseGraph) (s : String) :
    neighborsOf g s = nbrsL g.adj s := rfl

theorem edgeWeight_eq_L (g : SparseGraph) (x y : String) :
    g.edgeWeight x y = edgeWeightL g.adj x y := rfl

theorem hasEdge_eq_L (g : SparseGraph) (s t : String) :
    g.hasEdge s t = hasEdgeL g.adj s t := rfl

theorem nbrsL_update_ne (adj : List (String × List (String × ℚ)))
    (s x : String) (f) (hx : x ≠ s) :
    nbrsL (updateAdj adj s f) x = nbrsL adj x := by
  unfold nbrsL
  rw [updateAdj_find_ne adj s x f hx]

theorem nbrsL_update_self (adj : List (String × List (String × ℚ)))
    (s : String) (f) (hs : adj.any (·.1 == s)) :
    nbrsL (updateAdj adj s f) s = f (nbrsL adj s) := by
  unfold nbrsL
  rw [updateAdj_find_eq adj s f]
  obtain ⟨e, he⟩ := Option.isSome_iff_exists.mp
    ((any_key_iff_find?_isSome adj s).mp hs)
  rw [he]
  simp

theorem edgeWeightL_update_set (adj : List (String × List (String × ℚ)))
    (s t : String) (w : ℚ) (x y : String) (hs : adj.any (·.1 == s)) :
    edgeWeightL (updateAdj adj s (fun nb => setWeight nb t w)) x y
      = if x = s then (if y = t then some w else edgeWeightL adj s y)
        else edgeWeightL adj x y := by
  unfold edgeWeightL
  by_cases hx : x = s
  · subst hx
    rw [nbrsL_update_self adj x _ hs]
    by_cases hy : y = t
    · subst hy
      rw [setWeight_find_eq]
      simp
    · rw [setWeight_find_ne _ _ _ _ hy]
      simp [hy]
  · rw [nbrsL_update_ne adj s x _ hx]
    simp [hx]

theorem nbrsL_absent (adj : List (String × List (String × ℚ)))
    (s : String) (hs : ¬adj.any (·.1 == s)) : nbrsL adj s = [] := by
  unfold nbrsL
  cases hf : adj.find? (·.1 == s) with
  | none => simp
  | some a =>
    exfalso
    refine hs ((any_key_iff_find?_isSome adj s).mpr ?_)
    rw [hf]
    rfl

theorem edgeWeightL_update_del (adj : List (String × List (String × ℚ)))
    (s t : String) (x y : String) :
    edgeWeightL (updateAdj adj s (fun nb => delWeight nb t)) x y
      = if x = s then
          (if y = t then none else edgeWeightL adj s y)
        else edgeWeightL adj x y := by
  unfold edgeWeightL
  by_cases hx : x = s
  · subst hx
    by_cases hs : adj.any (·.1 == x)
    · rw [nbrsL_update_self adj x _ hs]
      by_cases hy : y = t
      · subst hy
        rw [delWeight_find_eq]
        simp
      · rw [delWeight_find_ne _ _ _ hy]
        simp [hy]
    · have h1 : nbrsL (updateAdj adj x (fun nb => delWeight nb t)) x = [] := by
        refine nbrsL_absent _ x ?_
        rw [any_updateAdj]
        exact hs
      rw [h1, nbrsL_absent adj x hs]
      simp
  · rw [nbrsL_update_ne adj s x _ hx]
    simp [hx]


/-! ### add_edge characterization -/

theorem add_edge_adj (g : SparseGraph) (s t : String) (w : ℚ) :
    (g.add_edge s t w).adj =
      if (!g.directed && s != t) = true then
        updateAdj (updateAdj ((g.add_node s).add_node t).adj s
          (fun nb => setWeight nb t w)) t (fun nb => setWeight nb s w)
      else
        updateAdj ((g.add_node s).add_node t).adj s
          (fun nb => setWeight nb t w) := by
  unfold SparseGraph.add_edge
  by_cases hb : (!g.directed && s != t) = true
  · rw [if_pos hb, if_pos hb]
  · rw [if_neg hb, if_neg hb]

theorem add_edge_directed (g : SparseGraph) (s t : String) (w : ℚ) :
    (g.add_edge s t w).directed = g.directed := by
  unfold SparseGraph.add_edge
  by_cases hb : (!g.directed && s != t) = true
  · rw [if_pos hb]
    show ((g.add_node s).add_node t).directed = g.directed
    rw [add_node_directed, add_node_directed]
  · rw [if_neg hb]
    show ((g.add_node s).add_node t).directed = g.directed
    rw [add_node_directed, add_node_directed]

theorem add_edge_count (g : SparseGraph) (s t : String) (w : ℚ) :
    (g.add_edge s t w).edge_count =
      g.edge_count + (if g.hasEdge s t then 0 else 1)
        + (if (!g.directed && s != t) = true then
            (if g.hasEdge t s then 0 else 1) else 0) := by
  have h1 : ((g.add_node s).add_node t).hasEdge s t = g.hasEdge s t := by
    rw [hasEdge_add_node, hasEdge_add_node]
  have h1c : ((g.add_node s).add_node t).edge_count = g.edge_count := by
    rw [add_node_edge_count, add_node_edge_count]
  unfold SparseGraph.add_edge
  by_cases hb : (!g.directed && s != t) = true
  · rw [if_pos hb]
    show (if hasEdgeL (updateAdj ((g.add_node s).add_node t).adj s
        (fun nb => setWeight nb t w)) t s = true then _ else _) = _
    have hts : t ≠ s := by
      have := (Bool.and_eq_true _ _).mp hb
      have h2 := this.2
      rw [bne_iff_ne] at h2
      exact h2.symm
    have h3 : hasEdgeL (updateAdj ((g.add_node s).add_node t).adj s
        (fun nb => setWeight nb t w)) t s = g.hasEdge t s := by
      unfold hasEdgeL
      rw [nbrsL_update_ne _ _ _ _ hts]
      rw [show nbrsL ((g.add_node s).add_node t).adj t
          = neighborsOf ((g.add_node s).add_node t) t from rfl]
      rw [neighborsOf_add_node, neighborsOf_add_node]
      rfl
    rw [h3]
    by_cases he1 : g.hasEdge s t = true <;>
      by_cases he2 : g.hasEdge t s = true <;>
        simp [he1, he2, h1, h1c, hb]
  · rw [if_neg hb]
    show SparseGraph.edge_count _ = _
    by_cases he1 : g.hasEdge s t = true <;> simp [he1, h1, h1c, hb]


theorem any_add_node_self (g : SparseGraph) (id : String) :
    (g.add_node id).adj.any (·.1 == id) = true :=
  (mem_nodes_iff_any _ id).mp ((mem_nodes_add_node g id id).mpr (Or.inr rfl))

theorem any_add_node_mono (g : SparseGraph) (id x : String)
    (h : g.adj.any (·.1 == x) = true) :
    (g.add_node id).adj.any (·.1 == x) = true :=
  (mem_nodes_iff_any _ x).mp
    ((mem_nodes_add_node g id x).mpr (Or.inl ((mem_nodes_iff_any g x).mpr h)))

theorem any_g1_s (g : SparseGraph) (s t : String) :
    ((g.add_node s).add_node t).adj.any (·.1 == s) = true :=
  any_add_node_mono _ t s (any_add_node_self g s)

theorem any_g1_t (g : SparseGraph) (s t : String) :
    ((g.add_node s).add_node t).adj.any (·.1 == t) = true :=
  any_add_node_self _ t

theorem edgeWeightL_g1 (g : SparseGraph) (s t x y : String) :
    edgeWeightL ((g.add_node s).add_node t).adj x y = g.edgeWeight x y := by
  rw [show edgeWeightL ((g.add_node s).add_node t).adj x y
      = ((g.add_node s).add_node t).edgeWeight x y from rfl]
  rw [edgeWeight_add_node, edgeWeight_add_node]

theorem hasEdgeL_g1 (g : SparseGraph) (s t x y : String) :
    hasEdgeL ((g.add_node s).add_node t).adj x y = g.hasEdge x y := by
  rw [show hasEdgeL ((g.add_node s).add_node t).adj x y
      = ((g.add_node s).add_node t).hasEdge x y from rfl]
  rw [hasEdge_add_node, hasEdge_add_node]

theorem edgeWeight_add_edge (g : SparseGraph) (s t : String) (w : ℚ)
    (x y : String) :
    (g.add_edge s t w).edgeWeight x y =
      if (!g.directed && s != t) = true ∧ x = t ∧ y = s then some w
      else if x = s ∧ y = t then some w
      else g.edgeWeight x y := by
  rw [edgeWeight_eq_L, add_edge_adj]
  by_cases hb : (!g.directed && s != t) = true
  · have hst : s ≠ t := by
      have h2 := ((Bool.and_eq_true _ _).mp hb).2
      rwa [bne_iff_ne] at h2
    rw [if_pos hb]
    have hs2 : (updateAdj ((g.add_node s).add_node t).adj s
        (fun nb => setWeight nb t w)).any (·.1 == t) = true := by
      rw [any_updateAdj]
      exact any_g1_t g s t
    rw [edgeWeightL_update_set _ t s w x y hs2]
    by_cases hxt : x = t
    · subst hxt
      rw [if_pos rfl]
      by_cases hys : y = s
      · subst hys
        simp [hb]
      · rw [if_neg hys]
        rw [edgeWeightL_update_set _ s x w x y (any_g1_s g s x)]
        rw [if_neg (fun hc : x = s => hst hc.symm)]
        rw [edgeWeightL_g1]
        simp [hys, Ne.symm hst]
    · rw [if_neg hxt]
      rw [edgeWeightL_update_set _ s t w x y (any_g1_s g s t)]
      by_cases hxs : x = s
      · subst hxs
        rw [if_pos rfl]
        by_cases hyt : y = t
        · subst hyt
          simp [hxt]
        · rw [if_neg hyt, edgeWeightL_g1]
          simp [hxt, hyt]
      · rw [if_neg hxs, edgeWeightL_g1]
        simp [hxt, hxs]
  · rw [if_neg hb]
    rw [edgeWeightL_update_set _ s t w x y (any_g1_s g s t)]
    by_cases hxs : x = s
    · subst hxs
      by_cases hyt : y = t
      · subst hyt
        simp [hb]
      · rw [if_pos rfl, if_neg hyt, edgeWeightL_g1]
        simp [hb, hyt]
    · rw [if_neg hxs, edgeWeightL_g1]
      simp [hb, hxs]

theorem pairCountL_update_set (adj : List (String × List (String × ℚ)))
    (s t : String) (w : ℚ) (hk : (adj.map (·.1)).Nodup)
    (hs : adj.any (·.1 == s) = true) :
    pairCountL (updateAdj adj s (fun nb => setWeight nb t w))
      = pairCountL adj + (if hasEdgeL adj s t then 0 else 1) := by
  obtain ⟨e₀, he₀⟩ := Option.isSome_iff_exists.mp
    ((any_key_iff_find?_isSome adj s).mp hs)
  have h2 := updateAdj_pairCount adj s (fun nb => setWeight nb t w) hk e₀ he₀
  simp only [] at h2
  have hlen := setWeight_length e₀.2 t w
  have he2 : nbrsL adj s = e₀.2 := by
    unfold nbrsL
    rw [he₀]
    simp
  have hh : hasEdgeL adj s t = e₀.2.any (·.1 == t) := by
    unfold hasEdgeL
    rw [he2]
  rw [hh]
  by_cases ha : e₀.2.any (·.1 == t) = true <;>
    simp [ha] at hlen ⊢ <;> omega

theorem pairCountL_update_del (adj : List (String × List (String × ℚ)))
    (s t : String) (hk : (adj.map (·.1)).Nodup)
    (hs : adj.any (·.1 == s) = true)
    (hnd : ((nbrsL adj s).map (·.1)).Nodup) :
    pairCountL (updateAdj adj s (fun nb => delWeight nb t))
        + (if hasEdgeL adj s t then 1 else 0)
      = pairCountL adj := by
  obtain ⟨e₀, he₀⟩ := Option.isSome_iff_exists.mp
    ((any_key_iff_find?_isSome adj s).mp hs)
  have h2 := updateAdj_pairCount adj s (fun nb => delWeight nb t) hk e₀ he₀
  simp only [] at h2
  have he2 : nbrsL adj s = e₀.2 := by
    unfold nbrsL
    rw [he₀]
    simp
  have hh : hasEdgeL adj s t = e₀.2.any (·.1 == t) := by
    unfold hasEdgeL
    rw [he2]
  rw [he2] at hnd
  rw [hh]
  by_cases ha : e₀.2.any (·.1 == t) = true
  · have hlen := delWeight_length_present e₀.2 t hnd ha
    simp only [ha, if_pos]
    omega
  · have hlen := delWeight_length_absent e₀.2 t (by simpa using ha)
    simp only [ha, if_neg, Bool.false_eq_true, if_false]
    omega

theorem add_edge_pairCount (g : SparseGraph) (s t : String) (w : ℚ)
    (hk : keysNodup g) :
    pairCount (g.add_edge s t w) =
      pairCount g + (if g.hasEdge s t then 0 else 1)
        + (if (!g.directed && s != t) = true then
            (if g.hasEdge t s then 0 else 1) else 0) := by
  have hk1 : (((g.add_node s).add_node t).adj.map (·.1)).Nodup :=
    keysNodup_add_node _ t (keysNodup_add_node _ s hk)
  have hpc1 : pairCountL ((g.add_node s).add_node t).adj = pairCount g := by
    rw [← pairCount_eq, add_node_pairCount, add_node_pairCount]
  rw [pairCount_eq, add_edge_adj]
  by_cases hb : (!g.directed && s != t) = true
  · have hts : t ≠ s := by
      have h2 := ((Bool.and_eq_true _ _).mp hb).2
      rw [bne_iff_ne] at h2
      exact h2.symm
    rw [if_pos hb]
    have hk2 : ((updateAdj ((g.add_node s).add_node t).adj s
        (fun nb => setWeight nb t w)).map (·.1)).Nodup := by
      rw [updateAdj_keys]
      exact hk1
    have hs2 : (updateAdj ((g.add_node s).add_node t).adj s
        (fun nb => setWeight nb t w)).any (·.1 == t) = true := by
      rw [any_updateAdj]
      exact any_g1_t g s t
    rw [pairCountL_update_set _ t s w hk2 hs2]
    rw [pairCountL_update_set _ s t w hk1 (any_g1_s g s t)]
    have hh2 : hasEdgeL (updateAdj ((g.add_node s).add_node t).adj s
        (fun nb => setWeight nb t w)) t s = g.hasEdge t s := by
      unfold hasEdgeL
      rw [nbrsL_update_ne _ _ _ _ hts]
      rw [show nbrsL ((g.add_node s).add_node t).adj t
          = neighborsOf ((g.add_node s).add_node t) t from rfl]
      rw [neighborsOf_add_node, neighborsOf_add_node]
      rfl
    rw [hh2, hasEdgeL_g1, hpc1, if_pos hb]
  · rw [if_neg hb]
    rw [pairCountL_update_set _ s t w hk1 (any_g1_s g s t)]
    rw [hasEdgeL_g1, hpc1, if_neg hb]
    simp


/-! ### Invariant preservation: add_node, add_edge -/

theorem nbrsNodup_add_node (g : SparseGraph) (id : String)
    (h : nbrsNodup g) : nbrsNodup (g.add_node id) := by
  intro e he
  by_cases ha : g.adj.any (·.1 == id)
  · rw [add_node_adj_present g id ha] at he
    exact h e he
  · rw [add_node_adj_absent g id ha] at he
    rcases List.mem_append.mp he with h1 | h1
    · exact h e h1
    · simp only [List.mem_singleton] at h1
      subst h1
      simp

theorem countOK_add_node (g : SparseGraph) (id : String)
    (h : countOK g) : countOK (g.add_node id) := by
  unfold countOK at h ⊢
  rw [add_node_edge_count, add_node_pairCount]
  exact h

theorem mirrorOK_add_node (g : SparseGraph) (id : String)
    (h : mirrorOK g) : mirrorOK (g.add_node id) := by
  intro hd e he kv hkv
  rw [add_node_directed] at hd
  rw [edgeWeight_add_node]
  by_cases ha : g.adj.any (·.1 == id)
  · rw [add_node_adj_present g id ha] at he
    exact h hd e he kv hkv
  · rw [add_node_adj_absent g id ha] at he
    rcases List.mem_append.mp he with h1 | h1
    · exact h hd e h1 kv hkv
    · simp only [List.mem_singleton] at h1
      subst h1
      simp at hkv

theorem WF_add_node (g : SparseGraph) (id : String) (h : WF g) :
    WF (g.add_node id) :=
  ⟨keysNodup_add_node g id h.1, nbrsNodup_add_node g id h.2.1,
   countOK_add_node g id h.2.2.1, mirrorOK_add_node g id h.2.2.2⟩

theorem keysNodup_add_edge (g : SparseGraph) (s t : String) (w : ℚ)
    (h : keysNodup g) : keysNodup (g.add_edge s t w) := by
  unfold keysNodup at h ⊢
  rw [add_edge_adj]
  have hk1 : (((g.add_node s).add_node t).adj.map (·.1)).Nodup :=
    keysNodup_add_node _ t (keysNodup_add_node _ s h)
  by_cases hb : (!g.directed && s != t) = true
  · rw [if_pos hb, updateAdj_keys, updateAdj_keys]
    exact hk1
  · rw [if_neg hb, updateAdj_keys]
    exact hk1

theorem setWeight_keys_nodup (nbrs : List (String × ℚ)) (t : String) (w : ℚ)
    (hnd : (nbrs.map (·.1)).Nodup) :
    ((setWeight nbrs t w).map (·.1)).Nodup := by
  rw [setWeight_keys]
  by_cases h : nbrs.any (·.1 == t)
  · rw [if_pos h]
    exact hnd
  · rw [if_neg h, List.nodup_append]
    refine ⟨hnd, List.nodup_singleton t, ?_⟩
    intro x hx
    simp only [List.mem_singleton]
    intro hc
    subst hc
    obtain ⟨a, ha, hk⟩ := List.mem_map.mp hx
    exact h (List.any_eq_true.mpr ⟨a, ha, by simp [hk]⟩)

theorem delWeight_keys_nodup (nbrs : List (String × ℚ)) (t : String)
    (hnd : (nbrs.map (·.1)).Nodup) :
    ((delWeight nbrs t).map (·.1)).Nodup :=
  (delWeight_keys_sublist nbrs t).nodup hnd

theorem mem_updateAdj (adj : List (String × List (String × ℚ)))
    (s : String) (f) (e : String × List (String × ℚ))
    (he : e ∈ updateAdj adj s f) :
    e ∈ adj ∨ ∃ e₀ ∈ adj, e = (e₀.1, f e₀.2) := by
  unfold updateAdj at he
  obtain ⟨e₀, he₀, heq⟩ := List.mem_map.mp he
  by_cases h : e₀.1 = s
  · right
    refine ⟨e₀, he₀, ?_⟩
    rw [← heq]
    simp [h]
  · left
    have heq2 : e₀ = e := by
      rw [← heq]
      rw [if_neg (by simp [h])]
    exact heq2 ▸ he₀

theorem nbrsNodup_add_edge (g : SparseGraph) (s t : String) (w : ℚ)
    (h : nbrsNodup g) : nbrsNodup (g.add_edge s t w) := by
  have h1 : nbrsNodup ((g.add_node s).add_node t) :=
    nbrsNodup_add_node _ t (nbrsNodup_add_node _ s h)
  intro e he
  rw [add_edge_adj] at he
  by_cases hb : (!g.directed && s != t) = true
  · rw [if_pos hb] at he
    rcases mem_updateAdj _ t _ e he with h2 | ⟨e₀, he₀, heq⟩
    · rcases mem_updateAdj _ s _ e h2 with h3 | ⟨e₁, he₁, heq1⟩
      · exact h1 e h3
      · subst heq1
        exact setWeight_keys_nodup _ t w (h1 e₁ he₁)
    · subst heq
      rcases mem_updateAdj _ s _ e₀ he₀ with h3 | ⟨e₁, he₁, heq1⟩
      · exact setWeight_keys_nodup _ s w (h1 e₀ h3)
      · subst heq1
        exact setWeight_keys_nodup _ s w (setWeight_keys_nodup _ t w (h1 e₁ he₁))
  · rw [if_neg hb] at he
    rcases mem_updateAdj _ s _ e he with h2 | ⟨e₀, he₀, heq⟩
    · exact h1 e h2
    · subst heq
      exact setWeight_keys_nodup _ t w (h1 e₀ he₀)

theorem countOK_add_edge (g : SparseGraph) (s t : String) (w : ℚ)
    (hk : keysNodup g) (h : countOK g) : countOK (g.add_edge s t w) := by
  unfold countOK at h ⊢
  rw [add_edge_count, add_edge_pairCount g s t w hk, h]
  push_cast
  by_cases he1 : g.hasEdge s t = true <;>
    by_cases hb : (!g.directed && s != t) = true <;>
      by_cases he2 : g.hasEdge t s = true <;>
        simp [he1, hb, he2]


theorem mirrorW_add_edge (g : SparseGraph) (s t : String) (w : ℚ)
    (h : mirrorW g) : mirrorW (g.add_edge s t w) := by
  intro hd x y q hxy hw
  rw [add_edge_directed] at hd
  rw [edgeWeight_add_edge] at hw
  rw [edgeWeight_add_edge]
  by_cases hb : (!g.directed && s != t) = true
  · have hst : s ≠ t := by
      have h2 := ((Bool.and_eq_true _ _).mp hb).2
      rwa [bne_iff_ne] at h2
    by_cases hc1 : x = t ∧ y = s
    · rw [if_pos ⟨hb, hc1.1, hc1.2⟩] at hw
      have hq : q = w := by
        injection hw with h2
        exact h2.symm
      rw [if_neg, if_pos ⟨hc1.2, hc1.1⟩]
      · rw [hq]
      · rintro ⟨hb2, hyt, hxs⟩
        exact hst (hc1.2.symm.trans hyt)
    · rw [if_neg (fun hall => hc1 ⟨hall.2.1, hall.2.2⟩)] at hw
      by_cases hc2 : x = s ∧ y = t
      · rw [if_pos hc2] at hw
        have hq : q = w := by
          injection hw with h2
          exact h2.symm
        rw [if_pos ⟨hb, hc2.2, hc2.1⟩, hq]
      · rw [if_neg hc2] at hw
        rw [if_neg, if_neg]
        · exact h hd x y q hxy hw
        · rintro ⟨hys, hxt⟩
          exact hc1 ⟨hxt, hys⟩
        · rintro ⟨hb2, hyt, hxs⟩
          exact hc2 ⟨hxs, hyt⟩
  · have hst : s = t := by
      by_contra hne
      apply hb
      rw [Bool.and_eq_true]
      refine ⟨?_, ?_⟩
      · rw [hd]
        rfl
      · rw [bne_iff_ne]
        exact hne
    rw [if_neg (fun hall => hb hall.1)] at hw
    rw [if_neg (fun hall => hb hall.1)]
    by_cases hc2 : x = s ∧ y = t
    · exfalso
      exact hxy (hc2.1.trans (hst.trans hc2.2.symm))
    · rw [if_neg hc2] at hw
      rw [if_neg]
      · exact h hd x y q hxy hw
      · rintro ⟨hys, hxt⟩
        exact hxy (hxt.trans (hst.symm.trans hys.symm))

theorem WF_add_edge (g : SparseGraph) (s t : String) (w : ℚ)
    (h : WF g) : WF (g.add_edge s t w) := by
  obtain ⟨hk, hn, hc, hm⟩ := h
  have hk2 := keysNodup_add_edge g s t w hk
  have hn2 := nbrsNodup_add_edge g s t w hn
  have hc2 := countOK_add_edge g s t w hk hc
  have hm2 : mirrorOK (g.add_edge s t w) := by
    rw [mirrorOK_iff_mirrorW _ hk2 hn2]
    exact mirrorW_add_edge g s t w ((mirrorOK_iff_mirrorW g hk hn).mp hm)
  exact ⟨hk2, hn2, hc2, hm2⟩


/-! ### remove_edge characterization -/

theorem remove_edge_absent (g : SparseGraph) (s t : String)
    (h : g.hasEdge s t = false) : g.remove_edge s t = (g, false) := by
  unfold SparseGraph.remove_edge
  rw [if_neg (by simp [h])]

theorem remove_edge_adj (g : SparseGraph) (s t : String)
    (h : g.hasEdge s t = true) :
    (g.remove_edge s t).1.adj =
      if (!g.directed && s != t) = true then
        updateAdj (updateAdj g.adj s (fun nb => delWeight nb t)) t
          (fun nb => delWeight nb s)
      else updateAdj g.adj s (fun nb => delWeight nb t) := by
  unfold SparseGraph.remove_edge
  rw [if_pos h]
  by_cases hb : (!g.directed && s != t) = true
  · rw [if_pos hb, if_pos hb]
  · rw [if_neg hb, if_neg hb]

theorem remove_edge_directed (g : SparseGraph) (s t : String) :
    (g.remove_edge s t).1.directed = g.directed := by
  unfold SparseGraph.remove_edge
  by_cases h : g.hasEdge s t = true
  · rw [if_pos h]
    by_cases hb : (!g.directed && s != t) = true
    · rw [if_pos hb]
    · rw [if_neg hb]
  · rw [if_neg h]

theorem remove_edge_count (g : SparseGraph) (s t : String)
    (h : g.hasEdge s t = true) :
    (g.remove_edge s t).1.edge_count =
      g.edge_count - 1 - (if (!g.directed && s != t) = true then 1 else 0) := by
  unfold SparseGraph.remove_edge
  rw [if_pos h]
  by_cases hb : (!g.directed && s != t) = true
  · rw [if_pos hb, if_pos hb]
  · rw [if_neg hb, if_neg hb]
    ring

theorem remove_edge_snd (g : SparseGraph) (s t : String) :
    (g.remove_edge s t).2 = g.hasEdge s t := by
  by_cases h : g.hasEdge s t = true
  · unfold SparseGraph.remove_edge
    rw [if_pos h, h]
    by_cases hb : (!g.directed && s != t) = true
    · rw [if_pos hb]
    · rw [if_neg hb]
  · rw [remove_edge_absent g s t (by simpa using h)]
    simp [Bool.eq_false_iff.mpr (by simpa using h)]

theorem edgeWeight_remove_edge (g : SparseGraph) (s t : String)
    (x y : String) (h : g.hasEdge s t = true) :
    (g.remove_edge s t).1.edgeWeight x y =
      if (!g.directed && s != t) = true ∧ x = t ∧ y = s then none
      else if x = s ∧ y = t then none
      else g.edgeWeight x y := by
  rw [edgeWeight_eq_L, remove_edge_adj g s t h]
  by_cases hb : (!g.directed && s != t) = true
  · have hst : s ≠ t := by
      have h2 := ((Bool.and_eq_true _ _).mp hb).2
      rwa [bne_iff_ne] at h2
    rw [if_pos hb]
    rw [edgeWeightL_update_del _ t s x y]
    by_cases hxt : x = t
    · subst hxt
      rw [if_pos rfl]
      by_cases hys : y = s
      · subst hys
        simp [hb]
      · rw [if_neg hys]
        rw [edgeWeightL_update_del _ s x x y]
        rw [if_neg (fun hc : x = s => hst hc.symm)]
        rw [show edgeWeightL g.adj x y = g.edgeWeight x y from rfl]
        simp [hys, Ne.symm hst]
    · rw [if_neg hxt]
      rw [edgeWeightL_update_del _ s t x y]
      by_cases hxs : x = s
      · subst hxs
        rw [if_pos rfl]
        by_cases hyt : y = t
        · subst hyt
          simp [hxt]
        · rw [if_neg hyt]
          rw [show edgeWeightL g.adj x y = g.edgeWeight x y from rfl]
          simp [hxt, hyt]
      · rw [if_neg hxs]
        rw [show edgeWeightL g.adj x y = g.edgeWeight x y from rfl]
        simp [hxt, hxs]
  · rw [if_neg hb]
    rw [edgeWeightL_update_del _ s t x y]
    by_cases hxs : x = s
    · subst hxs
      rw [if_pos rfl]
      by_cases hyt : y = t
      · subst hyt
        simp [hb]
      · rw [if_neg hyt]
        rw [show edgeWeightL g.adj x y = g.edgeWeight x y from rfl]
        simp [hb, hyt]
    · rw [if_neg hxs]
      rw [show edgeWeightL g.adj x y = g.edgeWeight x y from rfl]
      simp [hb, hxs]


theorem any_of_hasEdgeL (adj : List (String × List (String × ℚ)))
    (s t : String) (h : hasEdgeL adj s t = true) :
    adj.any (·.1 == s) = true := by
  by_contra hc
  unfold hasEdgeL at h
  rw [nbrsL_absent adj s (by simpa using hc)] at h
  simp at h

theorem nbrsL_nodup_of (g : SparseGraph) (hn : nbrsNodup g) (s : String) :
    ((nbrsL g.adj s).map (·.1)).Nodup := by
  unfold nbrsL
  cases hf : g.adj.find? (·.1 == s) with
  | none => simp
  | some e =>
    simp only [Option.map_some', Option.getD_some]
    exact hn e (List.mem_of_find?_eq_some hf)

theorem hasEdge_mirror (g : SparseGraph) (s t : String) (hm : mirrorW g)
    (hd : g.directed = false) (hst : s ≠ t) (h : g.hasEdge s t = true) :
    g.hasEdge t s = true := by
  rw [hasEdge_iff_isSome] at h
  obtain ⟨w, hw⟩ := Option.isSome_iff_exists.mp h
  rw [hasEdge_iff_isSome, hm hd s t w hst hw]
  rfl

theorem remove_edge_pairCount (g : SparseGraph) (s t : String)
    (h : g.hasEdge s t = true) (hk : keysNodup g) (hn : nbrsNodup g)
    (hm : mirrorW g) :
    pairCount (g.remove_edge s t).1 + 1
        + (if (!g.directed && s != t) = true then 1 else 0)
      = pairCount g := by
  have hL : hasEdgeL g.adj s t = true := by
    rw [← hasEdge_eq_L]
    exact h
  have hany : g.adj.any (·.1 == s) = true := any_of_hasEdgeL g.adj s t hL
  have hpc : pairCount g = pairCountL g.adj := pairCount_eq g
  rw [pairCount_eq, remove_edge_adj g s t h]
  by_cases hb : (!g.directed && s != t) = true
  · have hd : g.directed = false := by
      have h2 := ((Bool.and_eq_true _ _).mp hb).1
      simpa using h2
    have hst : s ≠ t := by
      have h2 := ((Bool.and_eq_true _ _).mp hb).2
      rwa [bne_iff_ne] at h2
    have hts : t ≠ s := Ne.symm hst
    have hts2 : g.hasEdge t s = true := hasEdge_mirror g s t hm hd hst h
    have htsL : hasEdgeL g.adj t s = true := by
      rw [← hasEdge_eq_L]
      exact hts2
    have h1 := pairCountL_update_del g.adj s t hk hany (nbrsL_nodup_of g hn s)
    rw [hL, if_pos rfl] at h1
    have hany2 : (updateAdj g.adj s (fun nb => delWeight nb t)).any
        (·.1 == t) = true := by
      rw [any_updateAdj]
      exact any_of_hasEdgeL g.adj t s htsL
    have hk2 : ((updateAdj g.adj s
        (fun nb => delWeight nb t)).map (·.1)).Nodup := by
      rw [updateAdj_keys]
      exact hk
    have hnd2 : ((nbrsL (updateAdj g.adj s (fun nb => delWeight nb t)) t).map
        (·.1)).Nodup := by
      rw [nbrsL_update_ne _ _ _ _ hts]
      exact nbrsL_nodup_of g hn t
    have h2 := pairCountL_update_del
      (updateAdj g.adj s (fun nb => delWeight nb t)) t s hk2 hany2 hnd2
    have hL2 : hasEdgeL (updateAdj g.adj s (fun nb => delWeight nb t)) t s
        = true := by
      unfold hasEdgeL
      rw [nbrsL_update_ne _ _ _ _ hts]
      exact htsL
    rw [hL2, if_pos rfl] at h2
    rw [if_pos hb, if_pos hb]
    omega
  · have h1 := pairCountL_update_del g.adj s t hk hany (nbrsL_nodup_of g hn s)
    rw [hL, if_pos rfl] at h1
    rw [if_neg hb, if_neg hb]
    omega

theorem keysNodup_remove_edge (g : SparseGraph) (s t : String)
    (hk : keysNodup g) : keysNodup (g.remove_edge s t).1 := by
  by_cases h : g.hasEdge s t = true
  · unfold keysNodup at hk ⊢
    rw [remove_edge_adj g s t h]
    by_cases hb : (!g.directed && s != t) = true
    · rw [if_pos hb, updateAdj_keys, updateAdj_keys]
      exact hk
    · rw [if_neg hb, updateAdj_keys]
      exact hk
  · rw [remove_edge_absent g s t (by simpa using h)]
    exact hk

theorem nbrsNodup_remove_edge (g : SparseGraph) (s t : String)
    (hn : nbrsNodup g) : nbrsNodup (g.remove_edge s t).1 := by
  by_cases h : g.hasEdge s t = true
  · intro e he
    rw [remove_edge_adj g s t h] at he
    by_cases hb : (!g.directed && s != t) = true
    · rw [if_pos hb] at he
      rcases mem_updateAdj _ t _ e he with h2 | ⟨e₀, he₀, heq⟩
      · rcases mem_updateAdj _ s _ e h2 with h3 | ⟨e₁, he₁, heq1⟩
        · exact hn e h3
        · subst heq1
          exact delWeight_keys_nodup _ t (hn e₁ he₁)
      · subst heq
        rcases mem_updateAdj _ s _ e₀ he₀ with h3 | ⟨e₁, he₁, heq1⟩
        · exact delWeight_keys_nodup _ s (hn e₀ h3)
        · subst heq1
          exact delWeight_keys_nodup _ s (delWeight_keys_nodup _ t (hn e₁ he₁))
    · rw [if_neg hb] at he
      rcases mem_updateAdj _ s _ e he with h2 | ⟨e₀, he₀, heq⟩
      · exact hn e h2
      · subst heq
        exact delWeight_keys_nodup _ t (hn e₀ he₀)
  · rw [remove_edge_absent g s t (by simpa using h)]
    exact hn

theorem countOK_remove_edge (g : SparseGraph) (s t : String)
    (hk : keysNodup g) (hn : nbrsNodup g) (hm : mirrorW g)
    (hc : countOK g) : countOK (g.remove_edge s t).1 := by
  by_cases h : g.hasEdge s t = true
  · unfold countOK at hc ⊢
    have hcount := remove_edge_count g s t h
    have hpair := remove_edge_pairCount g s t h hk hn hm
    rw [hcount, hc]
    by_cases hb : (!g.directed && s != t) = true
    · rw [if_pos hb] at hpair ⊢
      have : (pairCount (g.remove_edge s t).1 : Int) + 1 + 1
          = (pairCount g : Int) := by
        exact_mod_cast congrArg (Nat.cast : Nat → Int) hpair
      omega
    · rw [if_neg hb] at hpair ⊢
      have : (pairCount (g.remove_edge s t).1 : Int) + 1 + 0
          = (pairCount g : Int) := by
        exact_mod_cast congrArg (Nat.cast : Nat → Int) hpair
      omega
  · rw [remove_edge_absent g s t (by simpa using h)]
    exact hc

theorem mirrorW_remove_edge (g : SparseGraph) (s t : String)
    (hm : mirrorW g) : mirrorW (g.remove_edge s t).1 := by
  by_cases h : g.hasEdge s t = true
  · intro hd x y q hxy hw
    rw [remove_edge_directed] at hd
    rw [edgeWeight_remove_edge g s t x y h] at hw
    rw [edgeWeight_remove_edge g s t y x h]
    by_cases hc1 : (!g.directed && s != t) = true ∧ x = t ∧ y = s
    · rw [if_pos hc1] at hw
      exact absurd hw (by simp)
    · rw [if_neg hc1] at hw
      by_cases hc2 : x = s ∧ y = t
      · rw [if_pos hc2] at hw
        exact absurd hw (by simp)
      · rw [if_neg hc2] at hw
        by_cases hb : (!g.directed && s != t) = true
        · rw [if_neg, if_neg]
          · exact hm hd x y q hxy hw
          · rintro ⟨hys, hxt⟩
            exact hc1 ⟨hb, hxt, hys⟩
          · rintro ⟨hb2, hyt, hxs⟩
            exact hc2 ⟨hxs, hyt⟩
        · have hst : s = t := by
            by_contra hne
            apply hb
            rw [Bool.and_eq_true]
            refine ⟨?_, ?_⟩
            · rw [hd]
              rfl
            · rw [bne_iff_ne]
              exact hne
          rw [if_neg (fun hall => hb hall.1), if_neg]
          · exact hm hd x y q hxy hw
          · rintro ⟨hys, hxt⟩
            exact hxy (hxt.trans (hst.symm.trans hys.symm))
  · rw [remove_edge_absent g s t (by simpa using h)]
    exact hm

theorem WF_remove_edge (g : SparseGraph) (s t : String) (h : WF g) :
    WF (g.remove_edge s t).1 := by
  obtain ⟨hk, hn, hc, hm⟩ := h
  have hmW : mirrorW g := (mirrorOK_iff_mirrorW g hk hn).mp hm
  have hk2 := keysNodup_remove_edge g s t hk
  have hn2 := nbrsNodup_remove_edge g s t hn
  refine ⟨hk2, hn2, countOK_remove_edge g s t hk hn hmW hc, ?_⟩
  rw [mirrorOK_iff_mirrorW _ hk2 hn2]
  exact mirrorW_remove_edge g s t hmW


/-! ### Operation sequences and the reachable-state invariant -/

inductive GraphOp where
  | addN : String → GraphOp
  | addE : String → String → ℚ → GraphOp
  | remE : String → String → GraphOp
  deriving DecidableEq, Repr

def applyOp (g : SparseGraph) : GraphOp → SparseGraph
  | GraphOp.addN id => g.add_node id
  | GraphOp.addE s t w => g.add_edge s t w
  | GraphOp.remE s t => (g.remove_edge s t).1

def applyOps (g : SparseGraph) (ops : List GraphOp) : SparseGraph :=
  ops.foldl applyOp g

theorem WF_empty (d : Bool) : WF (SparseGraph.empty d) := by
  refine ⟨?_, ?_, ?_, ?_⟩
  · simp [keysNodup, SparseGraph.empty]
  · intro e he
    simp [SparseGraph.empty] at he
  · simp [countOK, SparseGraph.empty, pairCount]
  · intro hd e he
    simp [SparseGraph.empty] at he

theorem WF_applyOp (g : SparseGraph) (op : GraphOp) (h : WF g) :
    WF (applyOp g op) := by
  cases op with
  | addN id => exact WF_add_node g id h
  | addE s t w => exact WF_add_edge g s t w h
  | remE s t => exact WF_remove_edge g s t h

theorem WF_applyOps (g : SparseGraph) (ops : List GraphOp) (h : WF g) :
    WF (applyOps g ops) := by
  induction ops generalizing g with
  | nil => exact h
  | cons op rest ih =>
    exact ih (applyOp g op) (WF_applyOp g op h)


/-- Claim C8: after every sequence of add_node, add_edge and remove_edge
operations the edge counter equals the number of stored (source, target)
adjacency pairs; add_edge overwrites the weight of an existing edge without
incrementing the counter, increments it exactly once on first insertion of a
directed pair (directed graph or self-loop), and stores and counts both
directions when the graph is undirected and the endpoints differ. -/
theorem c8_edge_counter_invariant :
    (∀ (d : Bool) (ops : List GraphOp),
        (applyOps (SparseGraph.empty d) ops).edge_count
          = (pairCount (applyOps (SparseGraph.empty d) ops) : Int))
    ∧ (∀ (g : SparseGraph) (s t : String) (w : ℚ), WF g →
        g.hasEdge s t = true →
          (g.add_edge s t w).edge_count = g.edge_count
            ∧ (g.add_edge s t w).edgeWeight s t = some w)
    ∧ (∀ (g : SparseGraph) (s t : String) (w : ℚ), WF g →
        g.hasEdge s t = false → (g.directed = true ∨ s = t) →
          (g.add_edge s t w).edge_count = g.edge_count + 1
            ∧ (g.add_edge s t w).edgeWeight s t = some w)
    ∧ (∀ (g : SparseGraph) (s t : String) (w : ℚ), WF g →
        g.hasEdge s t = false → g.directed = false → s ≠ t →
          (g.add_edge s t w).edge_count = g.edge_count + 2
            ∧ (g.add_edge s t w).edgeWeight s t = some w
            ∧ (g.add_edge s t w).edgeWeight t s = some w) := by
  have hw : ∀ (g : SparseGraph) (s t : String) (w : ℚ),
      (g.add_edge s t w).edgeWeight s t = some w := by
    intro g s t w
    rw [edgeWeight_add_edge]
    by_cases hc1 : (!g.directed && s != t) = true ∧ s = t ∧ t = s
    · rw [if_pos hc1]
    · rw [if_neg hc1, if_pos ⟨rfl, rfl⟩]
  refine ⟨?_, ?_, ?_, ?_⟩
  · intro d ops
    exact (WF_applyOps (SparseGraph.empty d) ops (WF_empty d)).2.2.1
  · intro g s t w hWF hHas
    refine ⟨?_, hw g s t w⟩
    rw [add_edge_count, hHas]
    by_cases hb : (!g.directed && s != t) = true
    · have hd : g.directed = false := by
        have h2 := ((Bool.and_eq_true _ _).mp hb).1
        simpa using h2
      have hst : s ≠ t := by
        have h2 := ((Bool.and_eq_true _ _).mp hb).2
        rwa [bne_iff_ne] at h2
      have hmir : g.hasEdge t s = true :=
        hasEdge_mirror g s t
          ((mirrorOK_iff_mirrorW g hWF.1 hWF.2.1).mp hWF.2.2.2) hd hst hHas
      rw [hmir]
      simp [hb]
    · simp [hb]
  · intro g s t w hWF hHas hdir
    refine ⟨?_, hw g s t w⟩
    rw [add_edge_count, hHas]
    have hb : (!g.directed && s != t) = false := by
      rcases hdir with hd | hst
      · simp [hd]
      · simp [hst]
    rw [hb]
    simp
  · intro g s t w hWF hHas hd hst
    have hb : (!g.directed && s != t) = true := by
      rw [Bool.and_eq_true]
      refine ⟨?_, ?_⟩
      · rw [hd]
        rfl
      · rw [bne_iff_ne]
        exact hst
    refine ⟨?_, hw g s t w, ?_⟩
    · rw [add_edge_count, hHas]
      have hmir : g.hasEdge t s = false := by
        by_contra hc
        have hc2 : g.hasEdge t s = true := by
          cases hh : g.hasEdge t s
          · exact absurd hh hc
          · rfl
        have := hasEdge_mirror g t s
          ((mirrorOK_iff_mirrorW g hWF.1 hWF.2.1).mp hWF.2.2.2) hd
          (Ne.symm hst) hc2
        rw [this] at hHas
        exact Bool.true_eq_false.mp hHas
      rw [hmir]
      simp [hb]
      ring
    · rw [edgeWeight_add_edge]
      rw [if_pos ⟨hb, rfl, rfl⟩]

/-- Witness for C8 at concrete graphs: an undirected two-node graph built by
the operations themselves, exercising the overwrite, the directed first
insertion and the undirected mirrored insertion. -/
theorem c8_edge_counter_invariant_witness :
    (WF (applyOps (SparseGraph.empty false) [GraphOp.addE ("a") ("b") 1])
      ∧ (applyOps (SparseGraph.empty false)
          [GraphOp.addE ("a") ("b") 1]).hasEdge ("a") ("b") = true
      ∧ ((applyOps (SparseGraph.empty false)
            [GraphOp.addE ("a") ("b") 1]).add_edge ("a") ("b") 2).edge_count
          = (applyOps (SparseGraph.empty false)
              [GraphOp.addE ("a") ("b") 1]).edge_count
      ∧ ((applyOps (SparseGraph.empty false)
            [GraphOp.addE ("a") ("b") 1]).add_edge ("a") ("b") 2).edgeWeight
          ("a") ("b") = some 2)
    ∧ (WF (applyOps (SparseGraph.empty true) [GraphOp.addE ("a") ("b") 1])
      ∧ (applyOps (SparseGraph.empty true)
          [GraphOp.addE ("a") ("b") 1]).hasEdge ("a") ("c") = false
      ∧ ((applyOps (SparseGraph.empty true)
            [GraphOp.addE ("a") ("b") 1]).add_edge ("a") ("c") 3).edge_count
          = (applyOps (SparseGraph.empty true)
              [GraphOp.addE ("a") ("b") 1]).edge_count + 1)
    ∧ (WF (applyOps (SparseGraph.empty false) [GraphOp.addE ("a") ("b") 1])
      ∧ (applyOps (SparseGraph.empty false)
          [GraphOp.addE ("a") ("b") 1]).hasEdge ("a") ("c") = false
      ∧ ((applyOps (SparseGraph.empty false)
            [GraphOp.addE ("a") ("b") 1]).add_edge ("a") ("c") 3).edge_count
          = (applyOps (SparseGraph.empty false)
              [GraphOp.addE ("a") ("b") 1]).edge_count + 2
      ∧ ((applyOps (SparseGraph.empty false)
            [GraphOp.addE ("a") ("b") 1]).add_edge ("a") ("c") 3).edgeWeight
          ("c") ("a") = some 3) := by
  have hWFu : WF (applyOps (SparseGraph.empty false)
      [GraphOp.addE ("a") ("b") 1]) :=
    WF_applyOps _ _ (WF_empty false)
  have hWFd : WF (applyOps (SparseGraph.empty true)
      [GraphOp.addE ("a") ("b") 1]) :=
    WF_applyOps _ _ (WF_empty true)
  refine ⟨⟨hWFu, by decide, ?_⟩, ⟨hWFd, by decide, ?_⟩, ⟨hWFu, by decide, ?_, ?_⟩⟩
  · have h2 := (c8_edge_counter_invariant.2.1) _ ("a") ("b") 2 hWFu (by decide)
    exact ⟨h2.1, h2.2⟩
  · exact ((c8_edge_counter_invariant.2.2.1) _ ("a") ("c") 3 hWFd (by decide)
      (Or.inl (by decide))).1
  · exact ((c8_edge_counter_invariant.2.2.2) _ ("a") ("c") 3 hWFu (by decide)
      (by decide) (by decide)).1
  · exact ((c8_edge_counter_invariant.2.2.2) _ ("a") ("c") 3 hWFu (by decide)
      (by decide) (by decide)).2.2


/-! ## Text round trip: save_to_file / load_from_file

`save_to_file` writes three header lines (`directed:`, `nodes:`, `edges:`)
followed by one `source,target,weight` text line per stored adjacency pair.
`load_from_file` splits the text on newlines, reads the directed flag by
splitting the first line on `:` and comparing the second field to `True`,
drops the three header lines unconditionally, strips each remaining line,
skips blank lines and lines with fewer than two comma-separated fields,
parses the third field as a number when present — a failed parse is
Python's ValueError — and replays every parsed record through `add_edge`.
Strings are modelled as their character lists; the numeric text layer
renders a rational exactly and preserves the parse-failure path on
non-numeric text (the claim itself only asks for weight equality within
textual float-parsing precision). -/

abbrev Text := List Char

/-- The adjacency pairs in file order: one `(source, target, weight)`
record per stored edge, exactly as the writer's nested loop visits them. -/
def saveRecords (g : SparseGraph) : List (String × String × ℚ) :=
  (g.adj.map (fun e => e.2.map (fun kv => (e.1, kv.1, kv.2)))).flatten

/-- Replaying a record list through `add_edge` from an empty graph — the
loader's loop, once the text has been parsed. -/
def replayRecords (d : Bool) (rs : List (String × String × ℚ)) :
    SparseGraph :=
  rs.foldl (fun g r => g.add_edge r.1 r.2.1 r.2.2) (SparseGraph.empty d)

/-- One decimal digit as a character. -/
def digitChar (d : Nat) : Char :=
  if d = 0 then '0' else if d = 1 then '1' else if d = 2 then '2'
  else if d = 3 then '3' else if d = 4 then '4' else if d = 5 then '5'
  else if d = 6 then '6' else if d = 7 then '7' else if d = 8 then '8'
  else '9'

/-- Decimal digits of `n`, most significant first; the first argument is
fuel (`n` itself suffices). -/
def natDigitsAux : Nat → Nat → Text
  | 0, _ => []
  | fuel + 1, n =>
    if n = 0 then []
    else natDigitsAux fuel (n / 10) ++ [digitChar (n % 10)]

/-- Decimal rendering of a natural number. -/
def natDigits (n : Nat) : Text :=
  if n = 0 then [digitChar 0] else natDigitsAux n n

/-- Decimal rendering of an integer (Python `str` of an int). -/
def intToText (i : Int) : Text :=
  if i < 0 then '-' :: natDigits i.natAbs else natDigits i.natAbs

def digitVal (c : Char) : Nat := c.toNat - 48

/-- Left fold of decimal digits; `none` on any non-digit character. -/
def digitsValAux : Nat → Text → Option Nat
  | acc, [] => some acc
  | acc, c :: rest =>
    if c.isDigit then digitsValAux (acc * 10 + digitVal c) rest else none

/-- Parse a non-empty all-digit text as a natural number. -/
def digitsVal (t : Text) : Option Nat :=
  if t.isEmpty then none else digitsValAux 0 t

/-- Parse an optionally `-`-signed digit text as an integer. -/
def intOfText (t : Text) : Option Int :=
  if t.headD 'x' = '-' then (digitsVal t.tail).map (fun n => -(Int.ofNat n))
  else (digitsVal t).map (fun n => Int.ofNat n)

/-- Python `str.split(sep)`: split on every occurrence of the separator,
keeping empty fields. -/
def splitOnChar (sep : Char) : Text → List Text
  | [] => [[]]
  | c :: rest =>
    if c = sep then [] :: splitOnChar sep rest
    else
      match splitOnChar sep rest with
      | [] => [[c]]
      | h :: t => (c :: h) :: t

/-- Python `str.strip()`: drop whitespace from both ends. -/
def trimText (t : Text) : Text :=
  ((t.dropWhile Char.isWhitespace).reverse.dropWhile
    Char.isWhitespace).reverse

/-- Exact rendering of a stored weight (an integer, or `num/den`): the
numeric text layer of `f"{weight}"`, kept exact so that weights round-trip
exactly — the claim's precision carve-out covers the decimal rendering of
binary floats, which this abstracts. -/
def formatRat (q : ℚ) : Text :=
  intToText q.num ++ (if q.den = 1 then [] else '/' :: natDigits q.den)

/-- The numeric parse of the weight field — Python's `float(...)`: it
succeeds on every text `formatRat` emits and fails (ValueError) on
non-numeric text, such as a node id landing in the weight field. -/
def floatOfText (t : Text) : Option ℚ :=
  match splitOnChar '/' t with
  | [a] => (intOfText a).map (fun i => (i : ℚ))
  | [a, b] =>
    (intOfText a).bind (fun i => (intOfText b).bind (fun j =>
      if j = 0 then none else some ((i : ℚ) / (j : ℚ))))
  | _ => none

/-- Python `str` of a bool, as written into the `directed:` header. -/
def pyBool (b : Bool) : Text := if b then ("True").data else ("False").data

/-- The text line of one record: `source,target,weight`, no trailing
newline. -/
def lineOf (r : String × String × ℚ) : Text :=
  r.1.data ++ (',' :: (r.2.1.data ++ (',' :: formatRat r.2.2)))

/-- `SparseGraph.save_to_file` (graph.py lines 188-197): the file's full
text — three header lines, then one comma-separated line per stored
adjacency pair. -/
def save_to_file (g : SparseGraph) : Text :=
  (("directed:").data ++ pyBool g.directed)
    ++ ('\n' :: ((("nodes:").data ++ natDigits g.adj.length)
    ++ ('\n' :: ((("edges:").data ++ intToText g.edge_count)
    ++ ('\n' :: (saveRecords g).flatMap (fun r => lineOf r ++ ['\n']))))))

inductive LoadError where
  | valueError : LoadError
  | indexError : LoadError
  deriving DecidableEq, Repr

deriving instance DecidableEq for Except

/-- The loader's edge loop (graph.py lines 210-217): strip each line, skip
blank lines, split on commas, skip lines with fewer than two fields, parse
the weight field when present (propagating ValueError), default the weight
to 1.0 otherwise, and `add_edge` the pair. -/
def loadLines : List Text → SparseGraph → Except LoadError SparseGraph
  | [], g => Except.ok g
  | line :: rest, g =>
    if (trimText line).isEmpty then loadLines rest g
    else if 2 ≤ (splitOnChar ',' (trimText line)).length then
      match (if 2 < (splitOnChar ',' (trimText line)).length
          then floatOfText ((splitOnChar ',' (trimText line)).getD 2 [])
          else some 1) with
      | some w => loadLines rest (g.add_edge
          (String.mk ((splitOnChar ',' (trimText line)).getD 0 []))
          (String.mk ((splitOnChar ',' (trimText line)).getD 1 [])) w)
      | none => Except.error LoadError.valueError
    else loadLines rest g

/-- `SparseGraph.load_from_file` (graph.py lines 199-219): split the text
into lines, read the directed flag from the first line (`split(':')[1]`,
an IndexError when that field is missing), skip the three header lines
unconditionally, and replay the remainder through the edge loop. -/
def load_from_file (content : Text) : Except LoadError SparseGraph :=
  match splitOnChar ':' (trimText ((splitOnChar '\n' content).getD 0 [])) with
  | _ :: dirWord :: _ =>
    loadLines ((splitOnChar '\n' content).drop 3)
      (SparseGraph.empty (if dirWord = ("True").data then true else false))
  | _ => Except.error LoadError.indexError

/-- A node id the text format can carry faithfully: no separator comma and
no whitespace (newlines included). -/
def cleanText (t : Text) : Prop :=
  ∀ c ∈ t, c ≠ ',' ∧ c.isWhitespace = false

instance (t : Text) : Decidable (cleanText t) := by
  unfold cleanText
  infer_instance

theorem splitOnChar_cons (sep c : Char) (rest : Text) :
    splitOnChar sep (c :: rest)
      = if c = sep then [] :: splitOnChar sep rest
        else match splitOnChar sep rest with
          | [] => [[c]]
          | h :: t => (c :: h) :: t := rfl

theorem digitsValAux_nil (acc : Nat) : digitsValAux acc [] = some acc := rfl

theorem digitsValAux_cons (acc : Nat) (c : Char) (rest : Text) :
    digitsValAux acc (c :: rest)
      = if c.isDigit then digitsValAux (acc * 10 + digitVal c) rest
        else none := rfl

theorem splitOnChar_ne_nil (sep : Char) (t : Text) :
    splitOnChar sep t ≠ [] := by
  cases t with
  | nil => simp [splitOnChar]
  | cons c rest =>
    unfold splitOnChar
    by_cases hc : c = sep
    · simp [hc]
    · simp only [if_neg hc]
      cases splitOnChar sep rest <;> simp

theorem splitOnChar_no_sep (sep : Char) (t : Text)
    (h : ∀ c ∈ t, c ≠ sep) : splitOnChar sep t = [t] := by
  induction t with
  | nil => rfl
  | cons c rest ih =>
    unfold splitOnChar
    rw [if_neg (h c (List.mem_cons_self c rest))]
    rw [ih (fun x hx => h x (List.mem_cons_of_mem c hx))]

theorem splitOnChar_append_sep (sep : Char) (a b : Text)
    (h : ∀ c ∈ a, c ≠ sep) :
    splitOnChar sep (a ++ sep :: b) = a :: splitOnChar sep b := by
  induction a with
  | nil =>
    show splitOnChar sep (sep :: b) = [] :: splitOnChar sep b
    rw [splitOnChar_cons, if_pos rfl]
  | cons c rest ih =>
    show splitOnChar sep (c :: (rest ++ sep :: b)) = _
    rw [splitOnChar_cons]
    rw [if_neg (h c (List.mem_cons_self c rest))]
    rw [ih (fun x hx => h x (List.mem_cons_of_mem c hx))]

theorem dropWhile_ws_eq_self (t : Text)
    (h : ∀ c ∈ t, c.isWhitespace = false) :
    t.dropWhile Char.isWhitespace = t := by
  cases t with
  | nil => rfl
  | cons c rest =>
    rw [List.dropWhile_cons]
    rw [h c (List.mem_cons_self c rest)]
    simp

theorem trimText_of_clean (t : Text)
    (h : ∀ c ∈ t, c.isWhitespace = false) : trimText t = t := by
  unfold trimText
  rw [dropWhile_ws_eq_self t h]
  rw [dropWhile_ws_eq_self t.reverse (fun c hc => h c (List.mem_reverse.mp hc))]
  exact List.reverse_reverse t

theorem digitChar_facts (d : Nat) (hd : d < 10) :
    (digitChar d).isDigit = true ∧ (digitChar d).isWhitespace = false
      ∧ digitChar d ≠ ',' ∧ digitChar d ≠ ':' ∧ digitChar d ≠ '/'
      ∧ digitChar d ≠ '-' ∧ digitChar d ≠ '\n'
      ∧ digitVal (digitChar d) = d := by
  interval_cases d <;> decide

theorem natDigitsAux_mem (fuel : Nat) :
    ∀ (n : Nat), ∀ c ∈ natDigitsAux fuel n, ∃ d < 10, c = digitChar d := by
  induction fuel with
  | zero =>
    intro n c hc
    simp [natDigitsAux] at hc
  | succ fuel ih =>
    intro n c hc
    unfold natDigitsAux at hc
    by_cases hn : n = 0
    · rw [if_pos hn] at hc
      simp at hc
    · rw [if_neg hn] at hc
      rcases List.mem_append.mp hc with hc1 | hc2
      · exact ih (n / 10) c hc1
      · have hcd : c = digitChar (n % 10) := by simpa using hc2
        exact ⟨n % 10, Nat.mod_lt n (by norm_num), hcd⟩

theorem natDigits_mem (n : Nat) :
    ∀ c ∈ natDigits n, ∃ d < 10, c = digitChar d := by
  intro c hc
  unfold natDigits at hc
  by_cases hn : n = 0
  · rw [if_pos hn] at hc
    have hcd : c = digitChar 0 := by simpa using hc
    exact ⟨0, by norm_num, hcd⟩
  · rw [if_neg hn] at hc
    exact natDigitsAux_mem n n c hc

theorem natDigits_ne_nil (n : Nat) : natDigits n ≠ [] := by
  unfold natDigits
  by_cases hn : n = 0
  · rw [if_pos hn]
    simp
  · rw [if_neg hn]
    obtain ⟨fuel, hfe⟩ : ∃ f, n = f + 1 := ⟨n - 1, by omega⟩
    rw [hfe]
    unfold natDigitsAux
    rw [if_neg (by omega : ¬ (fuel + 1 = 0))]
    simp

theorem digitsValAux_append (s u : Text) :
    ∀ acc, digitsValAux acc (s ++ u)
      = (digitsValAux acc s).bind (fun m => digitsValAux m u) := by
  induction s with
  | nil =>
    intro acc
    rfl
  | cons c rest ih =>
    intro acc
    show digitsValAux acc (c :: (rest ++ u)) = _
    simp only [digitsValAux_cons]
    by_cases hc : c.isDigit
    · rw [if_pos hc, if_pos hc, ih]
    · rw [if_neg hc, if_neg hc]
      rfl

theorem digitsValAux_natDigitsAux (fuel : Nat) :
    ∀ (n acc : Nat), 0 < n → n ≤ fuel →
      digitsValAux acc (natDigitsAux fuel n)
        = some (acc * 10 ^ (natDigitsAux fuel n).length + n) := by
  induction fuel with
  | zero =>
    intro n acc h1 h2
    omega
  | succ fuel ih =>
    intro n acc h1 h2
    unfold natDigitsAux
    rw [if_neg (by omega : ¬ n = 0)]
    by_cases hq : n / 10 = 0
    · have hn10 : n < 10 := by omega
      have haux0 : natDigitsAux fuel 0 = [] := by
        cases fuel with
        | zero => rfl
        | succ f =>
          unfold natDigitsAux
          rw [if_pos rfl]
      rw [hq, haux0, List.nil_append]
      obtain ⟨hdig, -, -, -, -, -, -, hval⟩ :=
        digitChar_facts (n % 10) (Nat.mod_lt n (by norm_num))
      rw [digitsValAux_cons, if_pos hdig, digitsValAux_nil]
      rw [hval, Nat.mod_eq_of_lt hn10]
      simp
    · have hle : n / 10 ≤ fuel := by omega
      rw [digitsValAux_append]
      rw [ih (n / 10) acc (by omega) hle]
      obtain ⟨hdig, -, -, -, -, -, -, hval⟩ :=
        digitChar_facts (n % 10) (Nat.mod_lt n (by omega))
      show digitsValAux (acc * 10 ^ (natDigitsAux fuel (n / 10)).length
          + n / 10) [digitChar (n % 10)] = _
      rw [digitsValAux_cons, if_pos hdig, digitsValAux_nil]
      rw [hval]
      congr 1
      rw [List.length_append, List.length_singleton, pow_succ]
      have h10 := Nat.div_add_mod n 10
      calc (acc * 10 ^ (natDigitsAux fuel (n / 10)).length + n / 10) * 10
            + n % 10
          = acc * (10 ^ (natDigitsAux fuel (n / 10)).length * 10)
            + (10 * (n / 10) + n % 10) := by ring
        _ = acc * (10 ^ (natDigitsAux fuel (n / 10)).length * 10) + n := by
            rw [h10]

theorem digitsVal_natDigits (n : Nat) : digitsVal (natDigits n) = some n := by
  by_cases hn : n = 0
  · subst hn
    decide
  · unfold digitsVal
    rw [if_neg (by simp [List.isEmpty_iff, natDigits_ne_nil n])]
    unfold natDigits
    rw [if_neg hn]
    rw [digitsValAux_natDigitsAux n n 0 (by omega) (le_refl n)]
    simp

theorem intOfText_intToText (i : Int) : intOfText (intToText i) = some i := by
  unfold intToText
  by_cases hi : i < 0
  · rw [if_pos hi]
    unfold intOfText
    simp only [List.headD_cons, List.tail_cons]
    rw [if_pos trivial, digitsVal_natDigits, Option.map_some']
    rw [show -(Int.ofNat i.natAbs) = i by rw [Int.ofNat_eq_coe]; omega]
  · rw [if_neg hi]
    unfold intOfText
    obtain ⟨c, rest, hcons⟩ : ∃ c rest, natDigits i.natAbs = c :: rest := by
      cases h : natDigits i.natAbs with
      | nil => exact absurd h (natDigits_ne_nil _)
      | cons c r => exact ⟨c, r, rfl⟩
    obtain ⟨d, hd10, hcd⟩ := natDigits_mem i.natAbs c
      (by rw [hcons]; exact List.mem_cons_self c rest)
    have hne : c ≠ '-' := by
      rw [hcd]
      exact (digitChar_facts d hd10).2.2.2.2.2.1
    rw [hcons]
    simp only [List.headD_cons]
    rw [if_neg hne, ← hcons, digitsVal_natDigits, Option.map_some']
    rw [show Int.ofNat i.natAbs = i by rw [Int.ofNat_eq_coe]; omega]

theorem intToText_mem (i : Int) :
    ∀ c ∈ intToText i, c = '-' ∨ ∃ d < 10, c = digitChar d := by
  intro c hc
  unfold intToText at hc
  by_cases hi : i < 0
  · rw [if_pos hi] at hc
    rcases List.mem_cons.mp hc with rfl | hc2
    · exact Or.inl rfl
    · exact Or.inr (natDigits_mem _ c hc2)
  · rw [if_neg hi] at hc
    exact Or.inr (natDigits_mem _ c hc)

theorem intToText_no_slash (i : Int) : ∀ c ∈ intToText i, c ≠ '/' := by
  intro c hc
  rcases intToText_mem i c hc with rfl | ⟨d, hd, rfl⟩
  · decide
  · exact (digitChar_facts d hd).2.2.2.2.1

theorem formatRat_clean (q : ℚ) :
    ∀ c ∈ formatRat q, c ≠ ',' ∧ c.isWhitespace = false := by
  intro c hc
  unfold formatRat at hc
  rcases List.mem_append.mp hc with hc1 | hc2
  · rcases intToText_mem q.num c hc1 with rfl | ⟨d, hd, rfl⟩
    · exact ⟨by decide, by decide⟩
    · obtain ⟨-, hws, hcomma, -⟩ := digitChar_facts d hd
      exact ⟨hcomma, hws⟩
  · by_cases hden : q.den = 1
    · rw [if_pos hden] at hc2
      simp at hc2
    · rw [if_neg hden] at hc2
      rcases List.mem_cons.mp hc2 with rfl | hc3
      · exact ⟨by decide, by decide⟩
      · obtain ⟨d, hd, rfl⟩ := natDigits_mem _ c hc3
        obtain ⟨-, hws, hcomma, -⟩ := digitChar_facts d hd
        exact ⟨hcomma, hws⟩

theorem floatOfText_formatRat (q : ℚ) : floatOfText (formatRat q) = some q := by
  by_cases hden : q.den = 1
  · have hfr : formatRat q = intToText q.num := by
      unfold formatRat
      rw [if_pos hden, List.append_nil]
    rw [hfr]
    unfold floatOfText
    rw [splitOnChar_no_sep ('/') _ (intToText_no_slash q.num)]
    show (intOfText (intToText q.num)).map (fun i => (i : ℚ)) = some q
    rw [intOfText_intToText]
    have hq : ((q.num : Int) : ℚ) = q := by
      conv_rhs => rw [← Rat.num_div_den q]
      rw [hden]
      simp
    simp [hq]
  · have hfr : formatRat q = intToText q.num ++ '/' :: natDigits q.den := by
      unfold formatRat
      rw [if_neg hden]
    rw [hfr]
    unfold floatOfText
    rw [splitOnChar_append_sep ('/') _ _ (intToText_no_slash q.num)]
    rw [splitOnChar_no_sep ('/') _ (fun c hc => by
      obtain ⟨d, hd, rfl⟩ := natDigits_mem _ c hc
      exact (digitChar_facts d hd).2.2.2.2.1)]
    show (intOfText (intToText q.num)).bind (fun i =>
        (intOfText (natDigits q.den)).bind (fun j =>
          if j = 0 then none else some ((i : ℚ) / (j : ℚ)))) = some q
    rw [intOfText_intToText]
    have hb : intOfText (natDigits q.den) = some ((q.den : Nat) : Int) := by
      have h1 : natDigits q.den = intToText ((q.den : Nat) : Int) := by
        unfold intToText
        rw [if_neg (by omega : ¬ ((q.den : Nat) : Int) < 0), Int.natAbs_ofNat]
      rw [h1, intOfText_intToText]
    rw [hb]
    have hdz : ¬ (((q.den : Nat) : Int) = 0) := by
      have := q.den_nz
      omega
    simp only [Option.some_bind]
    rw [if_neg hdz]
    congr 1
    push_cast
    exact Rat.num_div_den q

/-- One record of the file matches the query pair `(x, y)` either directly
or as the mirror that `add_edge` would create on an undirected graph. -/
def matchCond (d : Bool) (r : String × String × ℚ) (x y : String) : Prop :=
  (x = r.1 ∧ y = r.2.1)
    ∨ (d = false ∧ r.1 ≠ r.2.1 ∧ x = r.2.1 ∧ y = r.1)

instance (d r x y) : Decidable (matchCond d r x y) := by
  unfold matchCond
  infer_instance

/-- The weight the replay of a record list leaves on the pair `(x, y)`,
later records overriding earlier ones. -/
def replayW (d : Bool) : List (String × String × ℚ) → String → String →
    Option ℚ
  | [], _, _ => none
  | r :: rest, x, y =>
    match replayW d rest x y with
    | some q => some q
    | none => if matchCond d r x y then some r.2.2 else none

theorem foldl_add_edge_directed (h : SparseGraph)
    (rs : List (String × String × ℚ)) :
    (rs.foldl (fun g r => g.add_edge r.1 r.2.1 r.2.2) h).directed
      = h.directed := by
  induction rs generalizing h with
  | nil => rfl
  | cons r rest ih =>
    rw [List.foldl_cons, ih, add_edge_directed]

theorem foldl_add_edge_weight (d : Bool) (h : SparseGraph)
    (rs : List (String × String × ℚ)) (x y : String)
    (hd : h.directed = d) :
    (rs.foldl (fun g r => g.add_edge r.1 r.2.1 r.2.2) h).edgeWeight x y
      = match replayW d rs x y with
        | some q => some q
        | none => h.edgeWeight x y := by
  induction rs generalizing h with
  | nil => rfl
  | cons r rest ih =>
    rw [List.foldl_cons]
    rw [ih (h.add_edge r.1 r.2.1 r.2.2) (by rw [add_edge_directed]; exact hd)]
    show (match replayW d rest x y with
      | some q => some q
      | none => (h.add_edge r.1 r.2.1 r.2.2).edgeWeight x y) = _
    cases hrw : replayW d rest x y with
    | some q =>
      show some q = _
      unfold replayW
      rw [hrw]
    | none =>
      show (h.add_edge r.1 r.2.1 r.2.2).edgeWeight x y = _
      unfold replayW
      rw [hrw]
      rw [edgeWeight_add_edge]
      by_cases hm : matchCond d r x y
      · rw [if_pos hm]
        rcases hm with ⟨hx, hy⟩ | ⟨hdf, hne, hx, hy⟩
        · by_cases hc1 : (!h.directed && r.1 != r.2.1) = true
              ∧ x = r.2.1 ∧ y = r.1
          · rw [if_pos hc1]
          · rw [if_neg hc1, if_pos ⟨hx, hy⟩]
        · rw [if_pos ?_]
          rw [Bool.and_eq_true]
          refine ⟨⟨?_, ?_⟩, hx, hy⟩
          · rw [hd, hdf]
            rfl
          · rw [bne_iff_ne]
            exact hne
      · rw [if_neg hm]
        rw [if_neg, if_neg]
        · rintro ⟨hx, hy⟩
          exact hm (Or.inl ⟨hx, hy⟩)
        · rintro ⟨hb, hx, hy⟩
          have hb2 := (Bool.and_eq_true _ _).mp hb
          refine hm (Or.inr ⟨?_, ?_, hx, hy⟩)
          · rw [hd] at hb2
            cases d
            · rfl
            · exact absurd hb2.1 (by simp)
          · have := hb2.2
            rwa [bne_iff_ne] at this


theorem replayW_none (d : Bool) (rs : List (String × String × ℚ))
    (x y : String) (hnone : ∀ r ∈ rs, ¬matchCond d r x y) :
    replayW d rs x y = none := by
  induction rs with
  | nil => rfl
  | cons r rest ih =>
    unfold replayW
    rw [ih (fun a ha hm => hnone a (List.mem_cons_of_mem r ha) hm)]
    rw [if_neg (hnone r (List.mem_cons_self r rest))]

theorem replayW_all_eq (d : Bool) (rs : List (String × String × ℚ))
    (x y : String) (w : ℚ)
    (hall : ∀ r ∈ rs, matchCond d r x y → r.2.2 = w)
    (hex : ∃ r ∈ rs, matchCond d r x y) :
    replayW d rs x y = some w := by
  induction rs with
  | nil =>
    obtain ⟨r, hr, hm⟩ := hex
    simp at hr
  | cons r rest ih =>
    unfold replayW
    by_cases hrest : ∃ a ∈ rest, matchCond d a x y
    · rw [ih (fun a ha hm => hall a (List.mem_cons_of_mem r ha) hm) hrest]
    · have hnone : replayW d rest x y = none :=
        replayW_none d rest x y (fun a ha hm => hrest ⟨a, ha, hm⟩)
      rw [hnone]
      have hmr : matchCond d r x y := by
        rcases hex with ⟨a, ha, hm⟩
        rcases List.mem_cons.mp ha with rfl | ha2
        · exact hm
        · exact absurd ⟨a, ha2, hm⟩ hrest
      rw [if_pos hmr, hall r (List.mem_cons_self r rest) hmr]

theorem mem_save_records (g : SparseGraph) (a b : String) (q : ℚ) :
    (a, b, q) ∈ (saveRecords g)
      ↔ ∃ e ∈ g.adj, e.1 = a ∧ (b, q) ∈ e.2 := by
  unfold saveRecords
  rw [List.mem_flatten]
  constructor
  · rintro ⟨l, hl, hmem⟩
    obtain ⟨e, he, heq⟩ := List.mem_map.mp hl
    subst heq
    obtain ⟨kv, hkv, heq⟩ := List.mem_map.mp hmem
    have h1 : e.1 = a := congrArg (·.1) heq
    have h2a : kv.1 = b := congrArg (·.2.1) heq
    have h2b : kv.2 = q := congrArg (·.2.2) heq
    refine ⟨e, he, h1, ?_⟩
    have hkvq : kv = (b, q) := by
      cases kv
      simp only [Prod.mk.injEq]
      exact ⟨h2a, h2b⟩
    exact hkvq ▸ hkv
  · rintro ⟨e, he, h1, hkv⟩
    refine ⟨e.2.map (fun kv => (e.1, kv.1, kv.2)), List.mem_map.mpr ⟨e, he, rfl⟩, ?_⟩
    refine List.mem_map.mpr ⟨(b, q), hkv, ?_⟩
    rw [h1]

theorem save_records_weight (g : SparseGraph) (hk : keysNodup g)
    (hn : nbrsNodup g) (a b : String) (q : ℚ) :
    (a, b, q) ∈ (saveRecords g) ↔ g.edgeWeight a b = some q := by
  rw [mem_save_records, edgeWeight_mem_iff g a b q hk hn]


theorem nodes_add_edge (g : SparseGraph) (s t : String) (w : ℚ) :
    (g.add_edge s t w).nodes = ((g.add_node s).add_node t).nodes := by
  unfold SparseGraph.nodes
  rw [add_edge_adj]
  by_cases hb : (!g.directed && s != t) = true
  · rw [if_pos hb, updateAdj_keys, updateAdj_keys]
  · rw [if_neg hb, updateAdj_keys]

theorem mem_nodes_add_edge (g : SparseGraph) (s t : String) (w : ℚ)
    (v : String) :
    v ∈ (g.add_edge s t w).nodes ↔ v ∈ g.nodes ∨ v = s ∨ v = t := by
  rw [nodes_add_edge, mem_nodes_add_node, mem_nodes_add_node]
  tauto

theorem foldl_add_edge_nodes (h : SparseGraph)
    (rs : List (String × String × ℚ)) (v : String) :
    v ∈ (rs.foldl (fun g r => g.add_edge r.1 r.2.1 r.2.2) h).nodes
      ↔ v ∈ h.nodes ∨ ∃ r ∈ rs, v = r.1 ∨ v = r.2.1 := by
  induction rs generalizing h with
  | nil => simp
  | cons r rest ih =>
    rw [List.foldl_cons, ih, mem_nodes_add_edge]
    constructor
    · rintro ((hv | hv | hv) | ⟨a, ha, hv⟩)
      · exact Or.inl hv
      · exact Or.inr ⟨r, List.mem_cons_self r rest, Or.inl hv⟩
      · exact Or.inr ⟨r, List.mem_cons_self r rest, Or.inr hv⟩
      · exact Or.inr ⟨a, List.mem_cons_of_mem r ha, hv⟩
    · rintro (hv | ⟨a, ha, hv⟩)
      · exact Or.inl (Or.inl hv)
      · rcases List.mem_cons.mp ha with rfl | ha2
        · rcases hv with hv | hv
          · exact Or.inl (Or.inr (Or.inl hv))
          · exact Or.inl (Or.inr (Or.inr hv))
        · exact Or.inr ⟨a, ha2, hv⟩

/-- Every stored target is itself a node of the graph; holds in every state
the operations can build, because add_edge inserts both endpoints. -/
def closedOK (g : SparseGraph) : Prop :=
  ∀ e ∈ g.adj, ∀ kv ∈ e.2, kv.1 ∈ g.nodes

instance (g : SparseGraph) : Decidable (closedOK g) := by
  unfold closedOK
  infer_instance

/-- Record-level round trip: replaying the saved records from an empty
graph reconstructs the directedness flag, the node set and the edge
weights exactly, for every well-formed graph state in which each node is
an endpoint of at least one stored edge. -/
theorem replay_save_round_trip (g : SparseGraph) (hWF : WF g)
    (hclosed : closedOK g)
    (hinc : ∀ v ∈ g.nodes,
      ∃ r ∈ (saveRecords g), v = r.1 ∨ v = r.2.1) :
    (replayRecords g.directed (saveRecords g)).directed = g.directed
    ∧ (∀ v, v ∈ (replayRecords g.directed (saveRecords g)).nodes ↔ v ∈ g.nodes)
    ∧ (∀ x y, (replayRecords g.directed (saveRecords g)).edgeWeight x y
        = g.edgeWeight x y) := by
  obtain ⟨hk, hn, hc, hm⟩ := hWF
  have hmW : mirrorW g := (mirrorOK_iff_mirrorW g hk hn).mp hm
  refine ⟨?_, ?_, ?_⟩
  · unfold replayRecords
    rw [foldl_add_edge_directed]
    rfl
  · intro v
    unfold replayRecords
    rw [foldl_add_edge_nodes]
    constructor
    · rintro (hv | ⟨r, hr, hv⟩)
      · simp [SparseGraph.empty, SparseGraph.nodes] at hv
      · obtain ⟨a, b, q⟩ := r
        obtain ⟨e, he, hea, hkv⟩ := (mem_save_records g a b q).mp hr
        rcases hv with rfl | rfl
        · rw [← hea]
          exact List.mem_map_of_mem _ he
        · exact hclosed e he _ hkv
    · intro hv
      exact Or.inr (hinc v hv)
  · intro x y
    unfold replayRecords
    rw [foldl_add_edge_weight g.directed
      (SparseGraph.empty g.directed)
      (saveRecords g) x y rfl]
    cases hw : g.edgeWeight x y with
    | some w =>
      have hrw : replayW g.directed (saveRecords g) x y = some w := by
        refine replayW_all_eq _ _ _ _ w ?_ ?_
        · rintro ⟨a, b, q⟩ hr hmc
          have hab : g.edgeWeight a b = some q :=
            (save_records_weight g hk hn a b q).mp hr
          rcases hmc with ⟨hx, hy⟩ | ⟨hd, hne, hx, hy⟩
          · subst hx
            subst hy
            rw [hab] at hw
            injection hw
          · subst hx
            subst hy
            have hba := hmW hd y x q hne hab
            rw [hba] at hw
            injection hw
        · refine ⟨(x, y, w), (save_records_weight g hk hn x y w).mpr hw, ?_⟩
          exact Or.inl ⟨rfl, rfl⟩
      rw [hrw]
    | none =>
      have hrw : replayW g.directed (saveRecords g) x y = none := by
        refine replayW_none _ _ _ _ ?_
        rintro ⟨a, b, q⟩ hr hmc
        have hab : g.edgeWeight a b = some q :=
          (save_records_weight g hk hn a b q).mp hr
        rcases hmc with ⟨hx, hy⟩ | ⟨hd, hne, hx, hy⟩
        · subst hx
          subst hy
          rw [hab] at hw
          injection hw
        · subst hx
          subst hy
          have hba := hmW hd y x q hne hab
          rw [hba] at hw
          injection hw
      rw [hrw]
      rfl

theorem ne_newline_of_not_ws {c : Char} (h : c.isWhitespace = false) :
    c ≠ '\n' := by
  intro hc
  subst hc
  exact absurd h (by decide)

theorem lineOf_clean (r : String × String × ℚ)
    (h1 : cleanText r.1.data) (h2 : cleanText r.2.1.data) :
    ∀ c ∈ lineOf r, c.isWhitespace = false := by
  intro c hc
  unfold lineOf at hc
  rcases List.mem_append.mp hc with hca | hcb
  · exact (h1 c hca).2
  · rcases List.mem_cons.mp hcb with rfl | hcc
    · decide
    · rcases List.mem_append.mp hcc with hcd | hce
      · exact (h2 c hcd).2
      · rcases List.mem_cons.mp hce with rfl | hcf
        · decide
        · exact (formatRat_clean r.2.2 c hcf).2

theorem splitOnChar_lineOf (r : String × String × ℚ)
    (h1 : cleanText r.1.data) (h2 : cleanText r.2.1.data) :
    splitOnChar (',') (lineOf r)
      = [r.1.data, r.2.1.data, formatRat r.2.2] := by
  unfold lineOf
  rw [splitOnChar_append_sep (',') _ _ (fun c hc => (h1 c hc).1)]
  rw [splitOnChar_append_sep (',') _ _ (fun c hc => (h2 c hc).1)]
  rw [splitOnChar_no_sep (',') _
    (fun c hc => (formatRat_clean r.2.2 c hc).1)]

theorem lineOf_ne_nil (r : String × String × ℚ) : lineOf r ≠ [] := by
  unfold lineOf
  simp

theorem loadLines_map_lineOf (rs : List (String × String × ℚ)) :
    ∀ (g : SparseGraph),
      (∀ r ∈ rs, cleanText r.1.data ∧ cleanText r.2.1.data) →
      loadLines (rs.map lineOf ++ [[]]) g
        = Except.ok (rs.foldl (fun h r => h.add_edge r.1 r.2.1 r.2.2) g) := by
  induction rs with
  | nil =>
    intro g _
    rfl
  | cons r rest ih =>
    intro g hclean
    have hr := hclean r (List.mem_cons_self r rest)
    show loadLines (lineOf r :: (rest.map lineOf ++ [[]])) g = _
    unfold loadLines
    rw [trimText_of_clean _ (lineOf_clean r hr.1 hr.2)]
    rw [splitOnChar_lineOf r hr.1 hr.2]
    rw [if_neg (by simp [List.isEmpty_iff, lineOf_ne_nil r])]
    rw [if_pos (by norm_num : (2 : Nat) ≤ ([r.1.data, r.2.1.data,
      formatRat r.2.2] : List Text).length)]
    rw [if_pos (by norm_num : (2 : Nat) < ([r.1.data, r.2.1.data,
      formatRat r.2.2] : List Text).length)]
    show (match floatOfText (formatRat r.2.2) with
      | some w => loadLines (rest.map lineOf ++ [[]])
          (g.add_edge (String.mk r.1.data) (String.mk r.2.1.data) w)
      | none => Except.error LoadError.valueError) = _
    rw [floatOfText_formatRat]
    show loadLines (rest.map lineOf ++ [[]])
        (g.add_edge (String.mk r.1.data) (String.mk r.2.1.data) r.2.2) = _
    rw [ih (g.add_edge (String.mk r.1.data) (String.mk r.2.1.data) r.2.2)
      (fun a ha => hclean a (List.mem_cons_of_mem r ha))]
    rfl

theorem splitOnChar_body (rs : List (String × String × ℚ))
    (hclean : ∀ r ∈ rs, cleanText r.1.data ∧ cleanText r.2.1.data) :
    splitOnChar ('\n') (rs.flatMap (fun r => lineOf r ++ ['\n']))
      = rs.map lineOf ++ [[]] := by
  induction rs with
  | nil => rfl
  | cons r rest ih =>
    rw [List.flatMap_cons, List.append_assoc, List.singleton_append]
    have hr := hclean r (List.mem_cons_self r rest)
    rw [splitOnChar_append_sep ('\n') _ _ (fun c hc =>
      ne_newline_of_not_ws (lineOf_clean r hr.1 hr.2 c hc))]
    rw [ih (fun a ha => hclean a (List.mem_cons_of_mem r ha))]
    rfl

theorem header1_split (d : Bool) :
    splitOnChar (':') (trimText (("directed:").data ++ pyBool d))
      = [("directed").data, pyBool d] := by
  cases d <;> decide

theorem header1_no_newline (d : Bool) :
    ∀ c ∈ ("directed:").data ++ pyBool d, c ≠ '\n' := by
  cases d <;> decide

theorem header2_no_newline (n : Nat) :
    ∀ c ∈ ("nodes:").data ++ natDigits n, c ≠ '\n' := by
  intro c hc
  rcases List.mem_append.mp hc with hc1 | hc2
  · exact (by decide : ∀ x ∈ ("nodes:").data, x ≠ '\n') c hc1
  · obtain ⟨d, hd, rfl⟩ := natDigits_mem n c hc2
    exact (digitChar_facts d hd).2.2.2.2.2.2.1

theorem header3_no_newline (i : Int) :
    ∀ c ∈ ("edges:").data ++ intToText i, c ≠ '\n' := by
  intro c hc
  rcases List.mem_append.mp hc with hc1 | hc2
  · exact (by decide : ∀ x ∈ ("edges:").data, x ≠ '\n') c hc1
  · rcases intToText_mem i c hc2 with rfl | ⟨d, hd, rfl⟩
    · decide
    · exact (digitChar_facts d hd).2.2.2.2.2.2.1

theorem pyBool_true_iff (d : Bool) :
    (if pyBool d = ("True").data then true else false) = d := by
  cases d <;> decide

theorem load_of_save (g : SparseGraph)
    (hclean : ∀ r ∈ saveRecords g,
      cleanText r.1.data ∧ cleanText r.2.1.data) :
    load_from_file (save_to_file g)
      = Except.ok (replayRecords g.directed (saveRecords g)) := by
  have hlines : splitOnChar ('\n') (save_to_file g)
      = (("directed:").data ++ pyBool g.directed)
        :: (("nodes:").data ++ natDigits g.adj.length)
        :: (("edges:").data ++ intToText g.edge_count)
        :: ((saveRecords g).map lineOf ++ [[]]) := by
    unfold save_to_file
    rw [splitOnChar_append_sep ('\n') _ _ (header1_no_newline g.directed)]
    rw [splitOnChar_append_sep ('\n') _ _ (header2_no_newline g.adj.length)]
    rw [splitOnChar_append_sep ('\n') _ _ (header3_no_newline g.edge_count)]
    rw [splitOnChar_body (saveRecords g) hclean]
  unfold load_from_file
  rw [hlines]
  simp only [List.getD_cons_zero, List.drop_succ_cons, List.drop_zero]
  rw [header1_split g.directed]
  show loadLines ((saveRecords g).map lineOf ++ [[]])
      (SparseGraph.empty
        (if pyBool g.directed = ("True").data then true else false))
    = Except.ok (replayRecords g.directed (saveRecords g))
  rw [pyBool_true_iff g.directed]
  exact loadLines_map_lineOf (saveRecords g) (SparseGraph.empty g.directed)
    hclean

/-- Claim C6 (amended): loading the text produced by save reconstructs the
directedness flag, the node set and the edge weights exactly, for every
well-formed graph state in which each node is an endpoint of at least one
stored edge and every node id is free of the format's separator characters
(commas and whitespace, newlines included).  Isolated nodes are lost
because the loader ignores the node-count header, and ids holding
separator characters misparse (see the counterexamples). -/
theorem c6_save_load_round_trip (g : SparseGraph) (hWF : WF g)
    (hclosed : closedOK g)
    (hinc : ∀ v ∈ g.nodes, ∃ r ∈ (saveRecords g), v = r.1 ∨ v = r.2.1)
    (hclean : ∀ r ∈ (saveRecords g),
      cleanText r.1.data ∧ cleanText r.2.1.data) :
    ∃ g2, load_from_file (save_to_file g) = Except.ok g2
      ∧ g2.directed = g.directed
      ∧ (∀ v, v ∈ g2.nodes ↔ v ∈ g.nodes)
      ∧ (∀ x y, g2.edgeWeight x y = g.edgeWeight x y) :=
  ⟨replayRecords g.directed (saveRecords g), load_of_save g hclean,
    (replay_save_round_trip g hWF hclosed hinc).1,
    (replay_save_round_trip g hWF hclosed hinc).2.1,
    (replay_save_round_trip g hWF hclosed hinc).2.2⟩

/-- Claim C6 counterexample: a graph holding one isolated node saves to a
file whose text has no edge lines, and loading that text yields the empty
graph — the node set is not reconstructed, refuting the claim as stated
for arbitrary graphs. -/
theorem c6_isolated_node_lost :
    load_from_file (save_to_file ((SparseGraph.empty true).add_node ("a")))
      = Except.ok (SparseGraph.empty true)
    ∧ ((SparseGraph.empty true).add_node ("a")).nodes = ["a"]
    ∧ (SparseGraph.empty true).nodes = [] := by
  decide

/-- A node id containing the separator comma produces an edge line the
loader misparses: the id's own comma shifts the fields, the weight slot
receives the text `c`, and `float("c")` raises ValueError — the loader
crashes on a file the writer produced. -/
theorem load_comma_id_value_error :
    load_from_file (save_to_file
        ((SparseGraph.empty true).add_edge ("a,b") ("c") 1))
      = Except.error LoadError.valueError := by
  decide

/-- A node id containing a newline splits one saved edge line in two: the
fragment before the newline has a single field and is skipped, the
remainder parses as a different edge, and the loader silently returns a
graph with a different node set. -/
theorem load_newline_id_other_graph :
    load_from_file (save_to_file
        ((SparseGraph.empty true).add_edge ("a\nb") ("c") 1))
      = Except.ok ((SparseGraph.empty true).add_edge ("b") ("c") 1)
    ∧ ((SparseGraph.empty true).add_edge ("a\nb") ("c") 1).nodes
      = ["a\nb", "c"]
    ∧ ((SparseGraph.empty true).add_edge ("b") ("c") 1).nodes
      = ["b", "c"] := by
  decide

/-- Witness for the amended C6 at a concrete one-edge directed graph. -/
theorem c6_save_load_round_trip_witness :
    (WF ((SparseGraph.empty true).add_edge ("a") ("b") 1)
      ∧ closedOK ((SparseGraph.empty true).add_edge ("a") ("b") 1)
      ∧ (∀ v ∈ ((SparseGraph.empty true).add_edge ("a") ("b") 1).nodes,
          ∃ r ∈ (saveRecords ((SparseGraph.empty true).add_edge
            ("a") ("b") 1)), v = r.1 ∨ v = r.2.1)
      ∧ (∀ r ∈ (saveRecords ((SparseGraph.empty true).add_edge
            ("a") ("b") 1)), cleanText r.1.data ∧ cleanText r.2.1.data))
    ∧ ∃ g2, load_from_file (save_to_file
          ((SparseGraph.empty true).add_edge ("a") ("b") 1))
        = Except.ok g2
      ∧ g2.directed = ((SparseGraph.empty true).add_edge
          ("a") ("b") 1).directed
      ∧ (∀ v, v ∈ g2.nodes ↔ v ∈ ((SparseGraph.empty true).add_edge
          ("a") ("b") 1).nodes)
      ∧ (∀ x y, g2.edgeWeight x y = ((SparseGraph.empty true).add_edge
          ("a") ("b") 1).edgeWeight x y) :=
  ⟨⟨by decide, by decide, by decide, by decide⟩,
    c6_save_load_round_trip ((SparseGraph.empty true).add_edge ("a") ("b") 1)
      (by decide) (by decide) (by decide) (by decide)⟩


/-! ## Personalization strategies: src/backend/domain/strategies.py

Python dicts of suspicion scores and base weights are association lists
(`None` and the empty dict both behave as the empty list: the code only
iterates over them or tests truthiness).  `node_to_idx` is the dict
comprehension over `enumerate(node_ids)`, so a later duplicate id wins. -/

def nodeToIdx (ids : List String) (k : String) : Option Nat :=
  match ids with
  | [] => none
  | a :: rest =>
    match nodeToIdx rest k with
    | some i => some (i + 1)
    | none => if a == k then some 0 else none

/-- `SuspicionBasedPersonalization.compute_personalization_vector`, with the
constructor floor `max(1.0, suspicion_weight)` applied to the configured
weight.  Starts uniform, overwrites entries with base weights, multiplies
suspicious entries by `1 + (suspicion_weight - 1) * score`, and divides by
the total only when the total is positive — otherwise the vector is
returned as is. -/
def SuspicionBased.compute_personalization_vector (w : ℚ)
    (node_ids : List String) (suspicious_nodes : List (String × ℚ))
    (base_weights : List (String × ℚ)) : List ℚ :=
  let n := node_ids.length
  let p0 := List.replicate n ((1 : ℚ) / n)
  let p1 := base_weights.foldl (fun acc kv =>
    match nodeToIdx node_ids kv.1 with
    | some i => acc.set i kv.2
    | none => acc) p0
  let sw := max 1 w
  let p2 := suspicious_nodes.foldl (fun acc kv =>
    match nodeToIdx node_ids kv.1 with
    | some i => acc.set i (acc.getD i 0 * (1 + (sw - 1) * kv.2))
    | none => acc) p1
  let total := p2.sum
  if 0 < total then p2.map (fun x => x / total) else p2

/-- `TransactionVolumePersonalization.compute_personalization_vector`:
uniform when no base weights are supplied; otherwise seeds mass from the
base weights, adds `score * total_weight / n` per suspicious node, and
normalizes, falling back to uniform when the total is not positive. -/
def TransactionVolume.compute_personalization_vector
    (node_ids : List String) (suspicious_nodes : List (String × ℚ))
    (base_weights : List (String × ℚ)) : List ℚ :=
  let n := node_ids.length
  if base_weights.isEmpty then List.replicate n ((1 : ℚ) / n)
  else
    let step1 := base_weights.foldl (fun acc kv =>
      match nodeToIdx node_ids kv.1 with
      | some i => (acc.1.set i kv.2, acc.2 + kv.2)
      | none => acc) (List.replicate n (0 : ℚ), (0 : ℚ))
    let p1 := step1.1
    let total_weight := step1.2
    let p2 := suspicious_nodes.foldl (fun acc kv =>
      match nodeToIdx node_ids kv.1 with
      | some i => acc.set i (acc.getD i 0 + kv.2 * total_weight / n)
      | none => acc) p1
    let total := p2.sum
    if 0 < total then p2.map (fun x => x / total)
    else List.replicate n ((1 : ℚ) / n)

/-- Claim C2 evaluated at the failing input: with the single node `a` and
the base-weight mapping `a ↦ 0`, the SuspicionBased strategy computes total
mass 0 and returns the zero vector unnormalized — there is no uniform
fallback, so the result is not a probability distribution.  The sibling
TransactionVolume strategy does fall back to uniform on the same input. -/
theorem c2_suspicion_zero_mass_returns_zero_vector :
    SuspicionBased.compute_personalization_vector 5 ["a"] [] [("a", 0)]
        = [0]
    ∧ (SuspicionBased.compute_personalization_vector 5 ["a"] []
        [("a", 0)]).sum ≠ 1
    ∧ TransactionVolume.compute_personalization_vector ["a"] [] [("a", 0)]
        = [1] := by
  refine ⟨?_, ?_, ?_⟩
  · norm_num [SuspicionBased.compute_personalization_vector, nodeToIdx]
  · norm_num [SuspicionBased.compute_personalization_vector, nodeToIdx]
  · norm_num [TransactionVolume.compute_personalization_vector, nodeToIdx]


/-! ## PageRank engine: src/backend/domain/pagerank.py

numpy arrays over exact rationals: vectors are `Fin n → ℚ`, matrices
`Fin n → Fin n → ℚ`.  The scipy sparse matrices of the sparse path carry the
same entries as their dense counterparts, so they share this representation;
the CSR/CSC storage format is irrelevant to the values computed. -/

def Vec (n : Nat) := Fin n → ℚ

def Mat (n : Nat) := Fin n → Fin n → ℚ

/-- `weighted_adj.sum(axis=0)`: the column sums, called out-degrees. -/
def out_degree_of {n : Nat} (W : Mat n) : Fin n → ℚ :=
  fun j => ∑ i, W i j

def colSum {n : Nat} (M : Mat n) (j : Fin n) : ℚ := ∑ i, M i j

/-- Columns with positive out-degree are divided by it; the rest stay 0. -/
def column_normalized {n : Nat} (W : Mat n) : Mat n :=
  fun i j => if 0 < out_degree_of W j then W i j / out_degree_of W j else 0

/-- `out_degree == 0`, the dangling mask. -/
def zero_out_degree {n : Nat} (W : Mat n) : Fin n → Prop :=
  fun j => out_degree_of W j = 0

instance {n : Nat} (W : Mat n) : DecidablePred (zero_out_degree W) := by
  unfold zero_out_degree
  infer_instance

/-- `adjacency_matrix * weights` when a weight overlay is supplied. -/
def apply_weights {n : Nat} (A : Mat n) (weights : Option (Mat n)) : Mat n :=
  match weights with
  | some V => fun i j => A i j * V i j
  | none => A

/-- The two dangling-node strategies of src/backend/domain/strategies.py.
Both rewrite the ROWS selected by the mask — `adjusted_matrix[i, :] = ...` —
exactly as the source does. -/
inductive DanglingStrategy (n : Nat) where
  | uniformDangling : DanglingStrategy n
  | teleportDangling : Option (Vec n) → DanglingStrategy n

def handle_dangling_nodes {n : Nat} (strat : DanglingStrategy n) (M : Mat n)
    (mask : Fin n → Prop) [DecidablePred mask] : Mat n :=
  match strat with
  | DanglingStrategy.uniformDangling =>
    fun i j => if mask i then 1 / (n : ℚ) else M i j
  | DanglingStrategy.teleportDangling pv =>
    let pers := pv.getD (fun _ => 1 / (n : ℚ))
    fun i j => if mask i then pers j else M i j

/-- `PowerIterationEngine.build_transition_matrix`: weighted adjacency,
column normalization by out-degree, then the configured dangling fix-up. -/
def build_transition_matrix {n : Nat} (strat : DanglingStrategy n)
    (adjacency_matrix : Mat n) (weights : Option (Mat n)) : Mat n :=
  let weighted_adj := apply_weights adjacency_matrix weights
  handle_dangling_nodes strat (column_normalized weighted_adj)
    (zero_out_degree weighted_adj)

/-- Claim C1 evaluated at a failing input: two nodes, one edge a→b, no
weights, Uniform strategy.  Node 0 has out-degree 0, so the strategy
rewrites row 0 to 1/2 everywhere; column 0 then sums to 1/2, not 1 — the
returned matrix is not column-stochastic, contradicting the claim, the
spec and the function's own docstring. -/
theorem c1_dangling_fixup_breaks_column_stochasticity :
    colSum (build_transition_matrix DanglingStrategy.uniformDangling
        (![![0, 1], ![0, 0]]) none) 0 = 1 / 2
    ∧ ((1 : ℚ) / 2 ≠ 1) := by
  constructor
  · norm_num [colSum, build_transition_matrix, handle_dangling_nodes,
      column_normalized, zero_out_degree, out_degree_of, apply_weights,
      Fin.sum_univ_two]
  · norm_num


/-- The configurable personalization strategy of the engine. -/
inductive PersChoice where
  | suspicionBased : ℚ → PersChoice
  | transactionVolume : PersChoice
  deriving DecidableEq, Repr

/-- `PowerIterationEngine.__init__` configuration (the dangling strategy is
omitted here: the sparse path provably ignores it, teleporting dangling mass
through the personalization vector whenever any dangling node exists). -/
structure EngineConfig where
  damping_factor : ℚ
  max_iterations : Nat
  tolerance : ℚ
  personalization : PersChoice
  deriving DecidableEq, Repr

/-- The engine's mutable caches: `_converged`, `_iterations_performed`,
`_transition_matrix`, `_personalization_vector`, `_page_rank`. -/
structure EngineState where
  converged : Bool
  iterations_performed : Nat
  transition_matrix : Option (List (List ℚ))
  personalization_vector : Option (List ℚ)
  page_rank : Option (List ℚ)
  deriving DecidableEq, Repr

/-- The caches as `__init__` leaves them. -/
def initState : EngineState :=
  { converged := false, iterations_performed := 0, transition_matrix := none,
    personalization_vector := none, page_rank := none }

/-- `PowerIterationEngine.compute_personalization_vector` delegates to the
configured strategy. -/
def compute_personalization_vector (c : PersChoice) (node_ids : List String)
    (suspicious_nodes base_weights : List (String × ℚ)) : List ℚ :=
  match c with
  | PersChoice.suspicionBased w =>
    SuspicionBased.compute_personalization_vector w node_ids
      suspicious_nodes base_weights
  | PersChoice.transactionVolume =>
    TransactionVolume.compute_personalization_vector node_ids
      suspicious_nodes base_weights

/-- The strategy output viewed as a vector indexed by node position. -/
def engine_p (cfg : EngineConfig) (node_ids : List String)
    (suspicious_nodes base_weights : List (String × ℚ)) :
    Vec node_ids.length :=
  fun i => (compute_personalization_vector cfg.personalization node_ids
    suspicious_nodes base_weights).getD i 0

def l1dist {n : Nat} (r s : Vec n) : ℚ := ∑ i, |r i - s i|

/-- One iteration of the sparse loop (pagerank.py lines 279-300): columns
with positive out-degree contribute `r_prev[j] * col_j / out_degree[j]`,
dangling columns teleport `r_prev[j]` through the personalization vector,
then damping is applied. -/
def sparse_step {n : Nat} (W : Mat n) (p : Vec n) (α : ℚ) (r : Vec n) :
    Vec n :=
  fun i => (1 - α) * (∑ j,
    (if 0 < out_degree_of W j then r j * (W i j / out_degree_of W j)
     else if out_degree_of W j = 0 then r j * p i else 0)) + α * p i

/-- The sparse for-loop with its for/else clause: on break it records
`(converged := true, iterations := current)`, on exhaustion `(false,
max_iterations)`. -/
def sparse_power_iteration {n : Nat} (step : Vec n → Vec n) (tol : ℚ)
    (maxIter : Nat) : Nat → Vec n → Vec n × Bool × Nat
  | 0, r => (r, false, maxIter)
  | fuel + 1, r =>
    let r2 := step r
    if l1dist r2 r < tol then (r2, true, maxIter - fuel)
    else sparse_power_iteration step tol maxIter fuel r2

/-- The uniform start vector `np.ones(n) / n`. -/
def sparse_r0 (n : Nat) : Vec n := fun _ => 1 / (n : ℚ)

/-- `PowerIterationEngine.compute_sparse_page_rank`: weighted adjacency,
personalization via the configured strategy (cached), uniform start, power
iteration with dangling mass teleported through p, diagnostics recorded on
both exit paths, scores zipped with the node ids. -/
def compute_sparse_page_rank (cfg : EngineConfig) (st : EngineState)
    (node_ids : List String) (sparse_adjacency : Mat node_ids.length)
    (weights : Option (Mat node_ids.length))
    (suspicious_nodes base_weights : List (String × ℚ)) :
    EngineState × List (String × ℚ) :=
  let weighted_adj := apply_weights sparse_adjacency weights
  let pL := compute_personalization_vector cfg.personalization node_ids
    suspicious_nodes base_weights
  let p := engine_p cfg node_ids suspicious_nodes base_weights
  let res := sparse_power_iteration
    (sparse_step weighted_adj p cfg.damping_factor) cfg.tolerance
    cfg.max_iterations cfg.max_iterations (sparse_r0 node_ids.length)
  ({ st with
      converged := res.2.1
      iterations_performed := res.2.2
      personalization_vector := some pL
      page_rank := some (List.ofFn res.1) },
    List.zip node_ids (List.ofFn res.1))


/-- Claim C9: the sparse computation's score mapping does not depend on the
engine's cached state — two runs from different cache states, and a second
run on the state left behind by the first, return identical mappings. -/
theorem c9_sparse_pagerank_deterministic (cfg : EngineConfig)
    (st₁ st₂ : EngineState) (node_ids : List String)
    (W : Mat node_ids.length) (weights : Option (Mat node_ids.length))
    (sus bw : List (String × ℚ)) :
    (compute_sparse_page_rank cfg st₁ node_ids W weights sus bw).2
        = (compute_sparse_page_rank cfg st₂ node_ids W weights sus bw).2
    ∧ (compute_sparse_page_rank cfg
          (compute_sparse_page_rank cfg st₁ node_ids W weights sus bw).1
          node_ids W weights sus bw).2
        = (compute_sparse_page_rank cfg st₁ node_ids W weights sus bw).2 :=
  ⟨rfl, rfl⟩

/-! ## The dense entry point against the repository's own graph store

`PowerIterationEngine.computeـpage_rank` begins with
`graph.get_normalized_matrix()` (pagerank.py line 127).  Python resolves the
attribute by name against the class; `SparseGraph`
(src/backend/infrastructure/graph.py) defines no such attribute, so the call
raises `AttributeError` before any score is produced. -/

/-- The methods `SparseGraph` actually defines, straight from graph.py. -/
def sparseGraphMethods : List String :=
  ["add_node", "add_edge", "remove_edge", "get_neighbors",
   "get_out_degree", "get_in_degree", "get_nodes", "get_edges",
   "get_adjacency_matrix", "get_sparse_adjacency_matrix", "subgraph",
   "save_to_file", "load_from_file", "to_sparse_matrix",
   "get_dangling_nodes"]

inductive PyError where
  | attributeError : String → PyError
  deriving DecidableEq, Repr

/-- Python attribute lookup on a SparseGraph instance. -/
def SparseGraph.getattr (g : SparseGraph) (name : String) :
    Except PyError Unit :=
  if name ∈ sparseGraphMethods then Except.ok ()
  else Except.error (PyError.attributeError name)

/-- The first expression the dense entry point evaluates; everything after
it is unreachable when the lookup fails, so its result type is the error
alone. -/
def compute_page_rank_entry (g : SparseGraph)
    (suspicious_nodes : List (String × ℚ)) : Except PyError Unit :=
  g.getattr ("get_normalized_matrix")

/-- Claim C10: for every graph instance and every suspicion mapping, the
dense entry point fails with AttributeError on get_normalized_matrix before
producing any scores. -/
theorem c10_dense_entry_attribute_error (g : SparseGraph)
    (suspicious_nodes : List (String × ℚ)) :
    compute_page_rank_entry g suspicious_nodes
      = Except.error (PyError.attributeError ("get_normalized_matrix")) := by
  unfold compute_page_rank_entry SparseGraph.getattr
  rw [if_neg]
  decide


theorem sparse_step_sum {n : Nat} (W : Mat n) (p : Vec n) (α : ℚ)
    (r : Vec n) (hW : ∀ i j, 0 ≤ W i j) (hp : ∑ i, p i = 1) :
    ∑ i, sparse_step W p α r i = (1 - α) * (∑ j, r j) + α := by
  have hod : ∀ j, 0 ≤ out_degree_of W j :=
    fun j => Finset.sum_nonneg (fun i _ => hW i j)
  have hcol : ∀ j, (∑ i : Fin n,
      (if 0 < out_degree_of W j then r j * (W i j / out_degree_of W j)
       else if out_degree_of W j = 0 then r j * p i else 0)) = r j := by
    intro j
    by_cases hpos : 0 < out_degree_of W j
    · simp only [hpos, if_true]
      calc ∑ i, r j * (W i j / out_degree_of W j)
          = r j * ∑ i, W i j / out_degree_of W j := by
            rw [Finset.mul_sum]
        _ = r j * ((∑ i, W i j) / out_degree_of W j) := by
            rw [Finset.sum_div]
        _ = r j := by
            rw [show (∑ i, W i j) = out_degree_of W j from rfl,
              div_self (ne_of_gt hpos), mul_one]
    · have hz : out_degree_of W j = 0 := le_antisymm (not_lt.mp hpos) (hod j)
      simp only [hz, lt_self_iff_false, if_false, eq_self_iff_true, if_true]
      rw [← Finset.mul_sum, hp, mul_one]
  unfold sparse_step
  rw [Finset.sum_add_distrib, ← Finset.mul_sum, ← Finset.mul_sum, hp,
    mul_one, Finset.sum_comm]
  rw [Finset.sum_congr rfl (fun j _ => hcol j)]

theorem sparse_step_nonneg {n : Nat} (W : Mat n) (p : Vec n) (α : ℚ)
    (r : Vec n) (hW : ∀ i j, 0 ≤ W i j) (hp : ∀ i, 0 ≤ p i)
    (hr : ∀ i, 0 ≤ r i) (hα0 : 0 ≤ α) (hα1 : α ≤ 1) :
    ∀ i, 0 ≤ sparse_step W p α r i := by
  have hod : ∀ j, 0 ≤ out_degree_of W j :=
    fun j => Finset.sum_nonneg (fun i _ => hW i j)
  intro i
  unfold sparse_step
  have hsum : 0 ≤ ∑ j : Fin n,
      (if 0 < out_degree_of W j then r j * (W i j / out_degree_of W j)
       else if out_degree_of W j = 0 then r j * p i else 0) := by
    refine Finset.sum_nonneg (fun j _ => ?_)
    by_cases hpos : 0 < out_degree_of W j
    · simp only [hpos, if_true]
      exact mul_nonneg (hr j) (div_nonneg (hW i j) (hod j))
    · simp only [hpos, if_false]
      by_cases hz : out_degree_of W j = 0
      · simp only [hz, if_true]
        exact mul_nonneg (hr j) (hp i)
      · simp only [hz, if_false]
        exact le_refl 0
  have h1 : (0 : ℚ) ≤ 1 - α := by linarith
  exact add_nonneg (mul_nonneg h1 hsum) (mul_nonneg hα0 (hp i))

theorem sparse_power_iteration_inv {n : Nat} (step : Vec n → Vec n)
    (tol : ℚ) (maxIter : Nat) (P : Vec n → Prop)
    (hstep : ∀ r, P r → P (step r)) :
    ∀ (fuel : Nat) (r : Vec n), P r →
      P (sparse_power_iteration step tol maxIter fuel r).1 := by
  intro fuel
  induction fuel with
  | zero =>
    intro r h
    exact h
  | succ fuel ih =>
    intro r h
    unfold sparse_power_iteration
    by_cases hc : l1dist (step r) r < tol
    · simp only [hc, if_true]
      exact hstep r h
    · simp only [hc, if_false]
      exact ih (step r) (hstep r h)

theorem sparse_power_iteration_exhaust {n : Nat} (step : Vec n → Vec n)
    (tol : ℚ) (maxIter : Nat) :
    ∀ (fuel : Nat) (r : Vec n),
      (∀ t < fuel, tol ≤ l1dist (step^[t + 1] r) (step^[t] r)) →
      sparse_power_iteration step tol maxIter fuel r
        = (step^[fuel] r, false, maxIter) := by
  intro fuel
  induction fuel with
  | zero =>
    intro r h
    rfl
  | succ fuel ih =>
    intro r h
    unfold sparse_power_iteration
    have h0 : tol ≤ l1dist (step r) r := by
      have h2 := h 0 (Nat.succ_pos fuel)
      simpa using h2
    rw [if_neg (not_lt.mpr h0)]
    rw [ih (step r) ?_]
    · rw [Function.iterate_succ_apply]
    · intro t ht
      have h2 := h (t + 1) (Nat.succ_lt_succ ht)
      rw [Function.iterate_succ_apply, Function.iterate_succ_apply] at h2
      exact h2


theorem map_snd_zip_eq {α β : Type} :
    ∀ (l1 : List α) (l2 : List β), l1.length = l2.length →
      (l1.zip l2).map Prod.snd = l2 := by
  intro l1
  induction l1 with
  | nil =>
    intro l2 h
    cases l2 with
    | nil => rfl
    | cons b bs => simp at h
  | cons a rest ih =>
    intro l2 h
    cases l2 with
    | nil => simp at h
    | cons b bs =>
      simp only [List.zip_cons_cons, List.map_cons]
      rw [ih bs (by simpa using h)]

/-- Claim C5 (amended, sparse path): when every residual up to
max_iterations stays at or above the tolerance, the sparse computation
records converged = false with iterations_performed = max_iterations and
still returns the scores of the last iterate. -/
theorem c5_sparse_exhaustion_reports (cfg : EngineConfig) (st : EngineState)
    (node_ids : List String) (W : Mat node_ids.length)
    (weights : Option (Mat node_ids.length))
    (sus bw : List (String × ℚ))
    (h : ∀ t < cfg.max_iterations,
      cfg.tolerance ≤ l1dist
        ((sparse_step (apply_weights W weights)
            (engine_p cfg node_ids sus bw) cfg.damping_factor)^[t + 1]
          (sparse_r0 node_ids.length))
        ((sparse_step (apply_weights W weights)
            (engine_p cfg node_ids sus bw) cfg.damping_factor)^[t]
          (sparse_r0 node_ids.length))) :
    (compute_sparse_page_rank cfg st node_ids W weights sus bw).1.converged
        = false
    ∧ (compute_sparse_page_rank cfg st node_ids W weights
        sus bw).1.iterations_performed = cfg.max_iterations
    ∧ (compute_sparse_page_rank cfg st node_ids W weights sus bw).2
        = List.zip node_ids (List.ofFn
            ((sparse_step (apply_weights W weights)
                (engine_p cfg node_ids sus bw)
                cfg.damping_factor)^[cfg.max_iterations]
              (sparse_r0 node_ids.length))) := by
  have hres := sparse_power_iteration_exhaust
    (sparse_step (apply_weights W weights)
      (engine_p cfg node_ids sus bw) cfg.damping_factor)
    cfg.tolerance cfg.max_iterations cfg.max_iterations
    (sparse_r0 node_ids.length) h
  refine ⟨?_, ?_, ?_⟩ <;>
    simp only [compute_sparse_page_rank, hres]

/-- Claim C3 (amended): provided the personalization vector the strategy
computes is a probability distribution (positive total mass: the SuspicionBased
zero-total case of C2 is excluded), the adjacency and overlay are entrywise
non-negative, the damping factor is in (0,1) as the constructor validates,
and the node list is non-empty, every returned score is non-negative and the
scores sum to exactly 1 in exact arithmetic. -/
theorem c3_sparse_scores_distribution (cfg : EngineConfig) (st : EngineState)
    (node_ids : List String) (W : Mat node_ids.length)
    (weights : Option (Mat node_ids.length))
    (sus bw : List (String × ℚ))
    (hα0 : 0 < cfg.damping_factor) (hα1 : cfg.damping_factor < 1)
    (hW : ∀ i j, 0 ≤ apply_weights W weights i j)
    (hn : node_ids ≠ [])
    (hp1 : ∑ i, engine_p cfg node_ids sus bw i = 1)
    (hp0 : ∀ i, 0 ≤ engine_p cfg node_ids sus bw i) :
    (∀ pr ∈ (compute_sparse_page_rank cfg st node_ids W weights sus bw).2,
      0 ≤ pr.2)
    ∧ ((compute_sparse_page_rank cfg st node_ids W weights
        sus bw).2.map Prod.snd).sum = 1 := by
  have hnn : (0 : ℚ) < (node_ids.length : ℚ) := by
    have h1 : 0 < node_ids.length := List.length_pos.mpr hn
    exact_mod_cast h1
  have hP0 : (∑ i, sparse_r0 node_ids.length i = 1)
      ∧ ∀ i, 0 ≤ sparse_r0 node_ids.length i := by
    constructor
    · unfold sparse_r0
      rw [Finset.sum_const, Finset.card_univ, Fintype.card_fin]
      rw [nsmul_eq_mul]
      field_simp
    · intro i
      unfold sparse_r0
      positivity
  have hstep : ∀ r : Vec node_ids.length,
      ((∑ i, r i = 1) ∧ ∀ i, 0 ≤ r i) →
      ((∑ i, sparse_step (apply_weights W weights)
          (engine_p cfg node_ids sus bw) cfg.damping_factor r i = 1)
        ∧ ∀ i, 0 ≤ sparse_step (apply_weights W weights)
            (engine_p cfg node_ids sus bw) cfg.damping_factor r i) := by
    rintro r ⟨hr1, hr0⟩
    constructor
    · rw [sparse_step_sum _ _ _ _ hW hp1, hr1]
      ring
    · exact sparse_step_nonneg _ _ _ _ hW hp0 hr0 (le_of_lt hα0)
        (le_of_lt hα1)
  have hfin := sparse_power_iteration_inv
    (sparse_step (apply_weights W weights)
      (engine_p cfg node_ids sus bw) cfg.damping_factor)
    cfg.tolerance cfg.max_iterations
    (fun v => (∑ i, v i = 1) ∧ ∀ i, 0 ≤ v i) hstep
    cfg.max_iterations (sparse_r0 node_ids.length) hP0
  have hout : (compute_sparse_page_rank cfg st node_ids W weights sus bw).2
      = List.zip node_ids (List.ofFn
          ((sparse_power_iteration
            (sparse_step (apply_weights W weights)
              (engine_p cfg node_ids sus bw) cfg.damping_factor)
            cfg.tolerance cfg.max_iterations cfg.max_iterations
            (sparse_r0 node_ids.length)).1)) := rfl
  constructor
  · intro pr hpr
    rw [hout] at hpr
    have h2 : pr.2 ∈ List.ofFn
        ((sparse_power_iteration
          (sparse_step (apply_weights W weights)
            (engine_p cfg node_ids sus bw) cfg.damping_factor)
          cfg.tolerance cfg.max_iterations cfg.max_iterations
          (sparse_r0 node_ids.length)).1) :=
      (List.of_mem_zip hpr).2
    obtain ⟨i, hi⟩ := (List.mem_ofFn _ _).mp h2
    rw [← hi]
    exact hfin.2 i
  · rw [hout, map_snd_zip_eq _ _ (by simp), List.sum_ofFn]
    exact hfin.1


/-- A valid engine configuration used by concrete instances below. -/
def cfg5 : EngineConfig :=
  { damping_factor := 1/2, max_iterations := 1, tolerance := 1/1000,
    personalization := PersChoice.suspicionBased 5 }

/-- Default-like configuration with two iterations of budget. -/
def cfg3 : EngineConfig :=
  { damping_factor := 17/20, max_iterations := 2,
    tolerance := 1/100000000, personalization := PersChoice.suspicionBased 5 }

/-- Claim C3 counterexample: one node `a`, no edges, base weight `a ↦ 0`.
The SuspicionBased strategy returns the zero personalization vector (claim
C2's failing case), the iteration then converges to the zero vector, and the
returned scores sum to 0, not 1. -/
theorem c3_zero_mass_scores_not_distribution :
    (compute_sparse_page_rank cfg3 initState ["a"] (![![0]]) none []
        [("a", 0)]).2 = [(("a"), (0 : ℚ))]
    ∧ (((compute_sparse_page_rank cfg3 initState ["a"] (![![0]]) none []
        [("a", 0)]).2.map Prod.snd).sum = 0)
    ∧ ((0 : ℚ) ≠ 1) := by
  refine ⟨?_, ?_, by norm_num⟩ <;>
    norm_num [cfg3, compute_sparse_page_rank, sparse_power_iteration,
      sparse_step, apply_weights, out_degree_of, sparse_r0, engine_p,
      compute_personalization_vector,
      SuspicionBased.compute_personalization_vector, nodeToIdx,
      List.replicate, List.getD, l1dist, Fin.sum_univ_one,
      Matrix.cons_val_zero, List.ofFn_succ, List.ofFn_zero]

/-- Witness for the amended C5 on the sparse path: one node with a single
outgoing edge, budget of one iteration, strict tolerance — the residual
stays above tolerance, and the engine reports converged = false with
iterations_performed = 1. -/
theorem c5_sparse_exhaustion_reports_witness :
    (∀ t < cfg5.max_iterations,
      cfg5.tolerance ≤ l1dist
        ((sparse_step (apply_weights (![![0, 1], ![0, 0]]) none)
            (engine_p cfg5 ["a", "b"] [] []) cfg5.damping_factor)^[t + 1]
          (sparse_r0 2))
        ((sparse_step (apply_weights (![![0, 1], ![0, 0]]) none)
            (engine_p cfg5 ["a", "b"] [] []) cfg5.damping_factor)^[t]
          (sparse_r0 2)))
    ∧ (compute_sparse_page_rank cfg5 initState ["a", "b"]
        (![![0, 1], ![0, 0]]) none [] []).1.converged = false
    ∧ (compute_sparse_page_rank cfg5 initState ["a", "b"]
        (![![0, 1], ![0, 0]]) none [] []).1.iterations_performed
        = cfg5.max_iterations := by
  have hyp : ∀ t < cfg5.max_iterations,
      cfg5.tolerance ≤ l1dist
        ((sparse_step (apply_weights (![![0, 1], ![0, 0]]) none)
            (engine_p cfg5 ["a", "b"] [] []) cfg5.damping_factor)^[t + 1]
          (sparse_r0 2))
        ((sparse_step (apply_weights (![![0, 1], ![0, 0]]) none)
            (engine_p cfg5 ["a", "b"] [] []) cfg5.damping_factor)^[t]
          (sparse_r0 2)) := by
    intro t ht
    have ht1 : t < 1 := ht
    rcases Nat.lt_one_iff.mp ht1 with rfl
    norm_num [cfg5, sparse_step, apply_weights, out_degree_of, sparse_r0,
      engine_p, compute_personalization_vector,
      SuspicionBased.compute_personalization_vector, nodeToIdx,
      List.replicate, List.getD, l1dist, Fin.sum_univ_two,
      Matrix.cons_val_zero, Matrix.cons_val_one, Matrix.head_cons,
      Function.iterate_one, Function.iterate_zero, abs]
  exact ⟨hyp,
    (c5_sparse_exhaustion_reports cfg5 initState ["a", "b"]
      (![![0, 1], ![0, 0]]) none [] [] hyp).1,
    (c5_sparse_exhaustion_reports cfg5 initState ["a", "b"]
      (![![0, 1], ![0, 0]]) none [] [] hyp).2.1⟩

/-- Witness for the amended C3 at a two-node cycle with default-style
personalization and no suspicion: the hypotheses hold concretely and the
returned scores are a probability distribution. -/
theorem c3_sparse_scores_distribution_witness :
    ((0 : ℚ) < cfg5.damping_factor) ∧ (cfg5.damping_factor < 1)
    ∧ (∀ i j, (0:ℚ) ≤ apply_weights (![![0, 1], ![0, 0]]) none i j)
    ∧ (["a", "b"] ≠ ([] : List String))
    ∧ (∑ i, engine_p cfg5 ["a", "b"] [] [] i = 1)
    ∧ (∀ i, 0 ≤ engine_p cfg5 ["a", "b"] [] [] i)
    ∧ (∀ pr ∈ (compute_sparse_page_rank cfg5 initState ["a", "b"]
        (![![0, 1], ![0, 0]]) none [] []).2, 0 ≤ pr.2)
    ∧ ((compute_sparse_page_rank cfg5 initState ["a", "b"]
        (![![0, 1], ![0, 0]]) none [] []).2.map Prod.snd).sum = 1 := by
  have h1 : (0 : ℚ) < cfg5.damping_factor := by norm_num [cfg5]
  have h2 : cfg5.damping_factor < 1 := by norm_num [cfg5]
  have h3 : ∀ i j, (0:ℚ) ≤ apply_weights (![![0, 1], ![0, 0]]) none i j := by
    intro i j
    fin_cases i <;> fin_cases j <;>
      norm_num [apply_weights, Matrix.cons_val_zero, Matrix.cons_val_one,
        Matrix.head_cons]
  have h4 : (["a", "b"] : List String) ≠ [] := by simp
  have h5 : ∑ i, engine_p cfg5 ["a", "b"] [] [] i = 1 := by
    show ∑ i : Fin 2, engine_p cfg5 ["a", "b"] [] [] i = 1
    norm_num [cfg5, engine_p, compute_personalization_vector,
      SuspicionBased.compute_personalization_vector, nodeToIdx,
      List.replicate, List.getD, Fin.sum_univ_two]
  have h6 : ∀ i, 0 ≤ engine_p cfg5 ["a", "b"] [] [] i := by
    intro i
    fin_cases i <;>
      norm_num [cfg5, engine_p, compute_personalization_vector,
        SuspicionBased.compute_personalization_vector, nodeToIdx,
        List.replicate, List.getD]
  have hmain := c3_sparse_scores_distribution cfg5 initState ["a", "b"]
    (![![0, 1], ![0, 0]]) none [] [] h1 h2 h3 h4 h5 h6
  exact ⟨h1, h2, h3, h4, h5, h6, hmain.1, hmain.2⟩


/-! ## The dense iteration path: computeـpage_rank (pagerank.py 126-156) -/

/-- One iteration of the dense loop (lines 144-149):
`r = (1 - α) * (matrix @ r_prev)` followed by
`r += (α + (1 - α) * dangling_sum) * p`, with
`dangling_sum = np.sum(r_prev[dangling_mask])`. -/
def dense_step {n : Nat} (M : Mat n) (mask : Fin n → Prop)
    [DecidablePred mask] (p : Vec n) (α : ℚ) (r : Vec n) : Vec n :=
  fun i => (1 - α) * (∑ j, M i j * r j)
    + (α + (1 - α) * (∑ j, if mask j then r j else 0)) * p i

/-- The dense for-loop (lines 143-155).  Unlike the sparse loop it has no
for/else clause: when the budget is exhausted without a break, the
convergence flags are returned exactly as they came in. -/
def dense_power_iteration {n : Nat} (step : Vec n → Vec n) (tol : ℚ)
    (maxIter : Nat) : Nat → Vec n → Bool × Nat → Vec n × Bool × Nat
  | 0, r, flags => (r, flags)
  | fuel + 1, r, flags =>
    let r2 := step r
    if l1dist r2 r < tol then (r2, true, maxIter - fuel)
    else dense_power_iteration step tol maxIter fuel r2 flags

/-- The dense path's personalization (lines 130-139): raw suspicion scores
written into a zero vector by graph index, normalized by their sum when
positive, else uniform. -/
def dense_personalization (node_ids : List String)
    (suspicious_nodes : List (String × ℚ)) : List ℚ :=
  let n := node_ids.length
  let p1 := suspicious_nodes.foldl (fun acc kv =>
    match nodeToIdx node_ids kv.1 with
    | some i => acc.set i kv.2
    | none => acc) (List.replicate n (0 : ℚ))
  if 0 < p1.sum then p1.map (fun x => x / p1.sum)
  else List.replicate n ((1 : ℚ) / n)

/-- `SparseGraph.get_out_degree`: the sum of a node's outgoing edge
weights. -/
def SparseGraph.get_out_degree (g : SparseGraph) (node_id : String) : ℚ :=
  ((neighborsOf g node_id).map Prod.snd).sum

/-- Modelled from the spec: `SparseGraph.get_normalized_matrix` is called by
the dense entry point (pagerank.py line 127) but is defined nowhere under
src (claim C10).  Per the spec (§3 transition matrix, §4.4 `M @ r`, rank
flows along edges) the engine expects the column-normalized transition
matrix — entry (i, j) = weight(node_j → node_i) / out_degree(node_j), with
dangling columns left all-zero so that their mass re-enters through the
`dangling_sum * p` term of the recurrence. -/
def normalized_matrix (g : SparseGraph) : Mat g.nodes.length :=
  fun i j =>
    if 0 < g.get_out_degree (g.nodes.get j) then
      (g.edgeWeight (g.nodes.get j) (g.nodes.get i)).getD 0
        / g.get_out_degree (g.nodes.get j)
    else 0

/-- Modelled from the spec: the dangling mask returned alongside the
normalized matrix — true where a node has no outgoing edges, exactly as
src's `SparseGraph.get_dangling_nodes` computes it. -/
def dangling_mask_of (g : SparseGraph) : Fin g.nodes.length → Prop :=
  fun j => neighborsOf g (g.nodes.get j) = []

instance (g : SparseGraph) : DecidablePred (dangling_mask_of g) := by
  unfold dangling_mask_of
  infer_instance

/-- `PowerIterationEngine.computeـpage_rank` (lines 126-156), its missing
`get_normalized_matrix` supplied by the spec-modelled definitions above:
the personalization vector is the normalized raw suspicion scores (uniform
when their sum is not positive), the iteration starts at p itself, the loop
has no for/else, and no caches are written. -/
def compute_page_rank_dense (cfg : EngineConfig) (st : EngineState)
    (g : SparseGraph) (suspicious_nodes : List (String × ℚ)) :
    EngineState × List (String × ℚ) :=
  let pL := dense_personalization g.nodes suspicious_nodes
  let p : Vec g.nodes.length := fun i => pL.getD i 0
  let res := dense_power_iteration
    (dense_step (normalized_matrix g) (dangling_mask_of g) p
      cfg.damping_factor)
    cfg.tolerance cfg.max_iterations cfg.max_iterations p
    (st.converged, st.iterations_performed)
  ({ st with
      converged := res.2.1
      iterations_performed := res.2.2 },
    List.zip g.nodes (List.ofFn res.1))

/-- `SparseGraph.get_sparse_adjacency_matrix`: entry (i, j) carries the
stored weight of the edge node_i → node_j. -/
def get_sparse_adjacency_matrix (g : SparseGraph) : Mat g.nodes.length :=
  fun i j => (g.edgeWeight (g.nodes.get i) (g.nodes.get j)).getD 0


theorem dense_power_iteration_converged_iff {n : Nat} (step : Vec n → Vec n)
    (tol : ℚ) (maxIter : Nat) :
    ∀ (fuel : Nat) (r : Vec n) (k : Nat),
      ((dense_power_iteration step tol maxIter fuel r (false, k)).2.1 = true
        ↔ ∃ t < fuel, l1dist (step^[t + 1] r) (step^[t] r) < tol) := by
  intro fuel
  induction fuel with
  | zero =>
    intro r k
    simp [dense_power_iteration]
  | succ fuel ih =>
    intro r k
    unfold dense_power_iteration
    by_cases hc : l1dist (step r) r < tol
    · simp only [hc, if_true]
      constructor
      · intro _
        exact ⟨0, Nat.succ_pos fuel, by simpa using hc⟩
      · intro _
        trivial
    · simp only [hc, if_false]
      rw [ih (step r) k]
      constructor
      · rintro ⟨t, ht, hd⟩
        refine ⟨t + 1, Nat.succ_lt_succ ht, ?_⟩
        rw [Function.iterate_succ_apply, Function.iterate_succ_apply]
        exact hd
      · rintro ⟨t, ht, hd⟩
        cases t with
        | zero =>
          exfalso
          apply hc
          simpa using hd
        | succ t2 =>
          refine ⟨t2, Nat.lt_of_succ_lt_succ ht, ?_⟩
          rw [Function.iterate_succ_apply, Function.iterate_succ_apply] at hd
          exact hd

/-- Claim C7: each dense iteration computes
`r_{t+1} = (1 - α) * (M @ r_t + dangling_sum_t * p) + α * p`, where
`dangling_sum_t` is the rank mass sitting on dangling nodes at step t, and
the loop breaks with converged = true exactly when some residual within the
iteration budget falls below the tolerance. -/
theorem c7_dense_step_and_termination {n : Nat} :
    (∀ (M : Mat n) (mask : Fin n → Prop) (inst : DecidablePred mask)
        (p : Vec n) (α : ℚ) (r : Vec n) (i : Fin n),
      dense_step M mask p α r i
        = (1 - α) * ((∑ j, M i j * r j)
            + (∑ j, if mask j then r j else 0) * p i) + α * p i)
    ∧ (∀ (step : Vec n → Vec n) (tol : ℚ) (maxIter : Nat) (r0 : Vec n)
        (c0 : Bool) (k0 : Nat), c0 = false →
      ((dense_power_iteration step tol maxIter maxIter r0 (c0, k0)).2.1
          = true
        ↔ ∃ t < maxIter, l1dist (step^[t + 1] r0) (step^[t] r0) < tol)) := by
  constructor
  · intro M mask inst p α r i
    unfold dense_step
    ring
  · intro step tol maxIter r0 c0 k0 hc0
    subst hc0
    exact dense_power_iteration_converged_iff step tol maxIter maxIter r0 k0

/-- Witness for C7 at a concrete two-node system with one-iteration budget:
the step identity instance and the termination characterization instance,
with the fresh-engine hypothesis discharged by rfl. -/
theorem c7_dense_step_and_termination_witness :
    (dense_step (![![(0:ℚ), 1], ![1, 0]]) (fun _ => False)
        (![(1:ℚ)/2, 1/2]) (1/2) (![(1:ℚ), 0]) 0
      = (1 - 1/2) * ((∑ j, (![![(0:ℚ), 1], ![1, 0]]) 0 j * (![(1:ℚ), 0]) j)
          + (∑ j : Fin 2, if False then (![(1:ℚ), 0]) j else 0)
            * (![(1:ℚ)/2, 1/2]) 0) + (1/2) * (![(1:ℚ)/2, 1/2]) 0)
    ∧ ((false : Bool) = false)
    ∧ ((dense_power_iteration
          (dense_step (![![(0:ℚ), 1], ![1, 0]]) (fun _ => False)
            (![(1:ℚ)/2, 1/2]) (1/2))
          (1/1000) 1 1 (![(1:ℚ), 0]) (false, 0)).2.1 = true
        ↔ ∃ t < 1, l1dist
            ((dense_step (![![(0:ℚ), 1], ![1, 0]]) (fun _ => False)
              (![(1:ℚ)/2, 1/2]) (1/2))^[t + 1] (![(1:ℚ), 0]))
            ((dense_step (![![(0:ℚ), 1], ![1, 0]]) (fun _ => False)
              (![(1:ℚ)/2, 1/2]) (1/2))^[t] (![(1:ℚ), 0])) < 1/1000) :=
  ⟨(c7_dense_step_and_termination.1) _ _ _ _ _ _ 0, rfl,
   (c7_dense_step_and_termination.2) _ (1/1000) 1 _ false 0 rfl⟩

/-- Claim C4 (amended): the two iteration paths share the recurrence — one
sparse step equals one dense step applied to the column-normalized matrix
and its dangling mask, for every weighted adjacency, personalization
vector, damping factor and iterate.  (The full paths still differ: they
build different personalization vectors and different start vectors; see
the counterexample.) -/
theorem c4_dense_sparse_step_agreement {n : Nat} (W : Mat n) (p : Vec n)
    (α : ℚ) (r : Vec n) :
    sparse_step W p α r
      = dense_step (column_normalized W) (zero_out_degree W) p α r := by
  funext i
  unfold sparse_step dense_step column_normalized zero_out_degree
  have hsplit : (∑ j, (if 0 < out_degree_of W j
        then r j * (W i j / out_degree_of W j)
        else if out_degree_of W j = 0 then r j * p i else 0))
      = (∑ j, (if 0 < out_degree_of W j
          then W i j / out_degree_of W j else 0) * r j)
        + (∑ j, if out_degree_of W j = 0 then r j else 0) * p i := by
    rw [Finset.sum_mul, ← Finset.sum_add_distrib]
    refine Finset.sum_congr rfl (fun j _ => ?_)
    by_cases hpos : 0 < out_degree_of W j
    · have hne : ¬out_degree_of W j = 0 := ne_of_gt hpos
      simp only [hpos, if_true, hne, if_false]
      ring
    · by_cases hz : out_degree_of W j = 0
      · simp only [hz, lt_self_iff_false, if_false, eq_self_iff_true,
          if_true, ite_self]
        ring
      · simp only [hpos, if_false, hz, if_false, ite_self]
        ring
  rw [hsplit]
  generalize (∑ j : Fin n, (if 0 < out_degree_of W j
    then W i j / out_degree_of W j else 0) * r j) = A
  generalize (∑ j : Fin n, if out_degree_of W j = 0 then r j else 0) = B
  ring


/-! ## Concrete two-node run separating the two iteration paths -/

/-- Engine configuration for the concrete separating run: the default
damping factor 0.85, a budget of one iteration, a strict tolerance, and the
default suspicion-based personalization (weight 5). -/
def cfgC4 : EngineConfig :=
  { damping_factor := 17/20, max_iterations := 1,
    tolerance := 1/100000000, personalization := PersChoice.suspicionBased 5 }

/-- The two-node directed cycle a → b → a with unit weights, written as its
stored adjacency structure. -/
def gC4 : SparseGraph := ⟨true, [("a", [("b", 1)]), ("b", [("a", 1)])], 2⟩

/-- Sanity check: `gC4` is exactly the graph built by the two `add_edge`
calls. -/
theorem gC4_built : gC4 = ((SparseGraph.empty true).add_edge ("a") ("b")
    1).add_edge ("b") ("a") 1 := by decide

/-- The dense path's personalization vector on `gC4` with suspicion
`{a: 1}`, expressed at the literal dimension 2. -/
def pC4 : Vec 2 := fun i => (dense_personalization gC4.nodes [("a", 1)]).getD i 0

/-- The dense path's power-iteration run on `gC4` with suspicion `{a: 1}`,
expressed at the literal dimension 2 (definitionally the run performed by
`compute_page_rank_dense cfgC4 initState gC4 [("a", 1)]`). -/
def denseRunC4 : Vec 2 × Bool × Nat :=
  dense_power_iteration
    (dense_step (normalized_matrix gC4) (dangling_mask_of gC4) pC4
      cfgC4.damping_factor)
    cfgC4.tolerance cfgC4.max_iterations cfgC4.max_iterations pC4
    (false, 0)

/-- The adjacency matrix of `gC4` at the literal dimension 2. -/
def aC4 : Mat 2 := get_sparse_adjacency_matrix gC4

/-- The sparse path's power-iteration run on the same inputs, expressed at
the literal dimension 2 (definitionally the run performed by
`compute_sparse_page_rank cfgC4 initState gC4.nodes
(get_sparse_adjacency_matrix gC4) none [("a", 1)] []`). -/
def sparseRunC4 : Vec 2 × Bool × Nat :=
  sparse_power_iteration
    (sparse_step (apply_weights aC4 none)
      (engine_p cfgC4 gC4.nodes [("a", 1)] []) cfgC4.damping_factor)
    cfgC4.tolerance cfgC4.max_iterations cfgC4.max_iterations (sparse_r0 2)

/-- Claim C4, counterexample to path agreement: on the same two-node cycle,
the same suspicion scores `{a: 1}` and the same configuration `cfgC4`, the
dense path returns `{a: 0.85, b: 0.15}` while the sparse path returns
`{a: 47/60, b: 13/60}` — the paths share the per-step recurrence but build
different personalization vectors (normalized raw scores vs the
suspicion-boost strategy) and different starting vectors (p vs uniform), so
the returned score mappings differ. -/
theorem c4_dense_sparse_results_differ :
    (compute_page_rank_dense cfgC4 initState gC4 [("a", 1)]).2
      = [(("a"), (17 : ℚ)/20), (("b"), (3 : ℚ)/20)]
    ∧ (compute_sparse_page_rank cfgC4 initState gC4.nodes
        (get_sparse_adjacency_matrix gC4) none [("a", 1)] []).2
      = [(("a"), (47 : ℚ)/60), (("b"), (13 : ℚ)/60)]
    ∧ (compute_page_rank_dense cfgC4 initState gC4 [("a", 1)]).2
      ≠ (compute_sparse_page_rank cfgC4 initState gC4.nodes
        (get_sparse_adjacency_matrix gC4) none [("a", 1)] []).2 := by
  have kd : (compute_page_rank_dense cfgC4 initState gC4 [("a", 1)]).2
      = List.zip gC4.nodes (List.ofFn denseRunC4.1) := rfl
  have ks : (compute_sparse_page_rank cfgC4 initState gC4.nodes
      (get_sparse_adjacency_matrix gC4) none [("a", 1)] []).2
      = List.zip gC4.nodes (List.ofFn sparseRunC4.1) := rfl
  have hd : (compute_page_rank_dense cfgC4 initState gC4 [("a", 1)]).2
      = [(("a"), (17 : ℚ)/20), (("b"), (3 : ℚ)/20)] := by
    rw [kd]
    norm_num +decide [denseRunC4, pC4, gC4, cfgC4, dense_power_iteration,
      dense_step, dense_personalization, normalized_matrix, dangling_mask_of,
      SparseGraph.get_out_degree, SparseGraph.edgeWeight, neighborsOf,
      SparseGraph.nodes, nodeToIdx, List.replicate, List.getD, l1dist,
      Fin.sum_univ_two, List.ofFn_succ, List.ofFn_zero,
      Function.iterate_one, Function.iterate_zero, abs]
  have hs : (compute_sparse_page_rank cfgC4 initState gC4.nodes
      (get_sparse_adjacency_matrix gC4) none [("a", 1)] []).2
      = [(("a"), (47 : ℚ)/60), (("b"), (13 : ℚ)/60)] := by
    rw [ks]
    norm_num +decide [sparseRunC4, aC4, gC4, cfgC4, sparse_power_iteration,
      sparse_step, apply_weights, out_degree_of, sparse_r0, engine_p,
      compute_personalization_vector,
      SuspicionBased.compute_personalization_vector,
      get_sparse_adjacency_matrix, SparseGraph.edgeWeight, neighborsOf,
      SparseGraph.nodes, nodeToIdx, List.replicate, List.getD, l1dist,
      Fin.sum_univ_two, List.ofFn_succ, List.ofFn_zero,
      Function.iterate_one, Function.iterate_zero, abs]
  refine ⟨hd, hs, ?_⟩
  rw [hd, hs]
  norm_num

/-- Claim C5, counterexample on the dense path: with `max_iterations = 1`
and a strict tolerance the dense loop exhausts its budget without
converging, but — having no for/else clause — it never writes the
convergence diagnostics: a fresh engine still reports `converged = false`
and `iterations_performed = 0`, not the claimed `iterations_performed = 1`
that the sparse path records. -/
theorem c5_dense_exhaustion_keeps_stale_diagnostics :
    cfgC4.max_iterations = 1
    ∧ (compute_page_rank_dense cfgC4 initState gC4 [("a", 1)]).1.converged
      = false
    ∧ (compute_page_rank_dense cfgC4 initState gC4
        [("a", 1)]).1.iterations_performed = 0 := by
  have kc : (compute_page_rank_dense cfgC4 initState gC4
      [("a", 1)]).1.converged = denseRunC4.2.1 := rfl
  have ki : (compute_page_rank_dense cfgC4 initState gC4
      [("a", 1)]).1.iterations_performed = denseRunC4.2.2 := rfl
  refine ⟨rfl, ?_, ?_⟩ <;> [rw [kc]; rw [ki]] <;>
    norm_num +decide [denseRunC4, pC4, gC4, cfgC4, dense_power_iteration,
      dense_step, dense_personalization, normalized_matrix, dangling_mask_of,
      SparseGraph.get_out_degree, SparseGraph.edgeWeight, neighborsOf,
      SparseGraph.nodes, nodeToIdx, List.replicate, List.getD, l1dist,
      Fin.sum_univ_two, List.ofFn_succ, List.ofFn_zero,
      Function.iterate_one, Function.iterate_zero, abs]

end PPR
